import Mathlib

/-!
# CeasarFS / adret: the decrypted-path tree model

A shallow embedding of `pkg/adret/tree.go`: the node list, the queries over it
(`GetNodeByName`, `GetChildrenNodes`, `GetDescendantNodes`, `GetRootDir`, `Exist`,
`IsDir`), the construction of a tree from a resource map
(`GetTreeStructFromResourcesMap`) and the tree renderer (`specialPrint`, `PrintNode`,
`PrintTree`); and of the listener of `cmd/playground/main.go` (`decodeJSONBody`,
`RemoteLs`).

Modelling conventions.
* A Go `string` is a Lean `String`, read as the sequence of its code points
  (`String.data`).  Every string operation the source performs (comparison with
  `/` and `.`, equality, prefix test, lexicographic order, concatenation) gives
  the same answer on the bytes of valid UTF-8 text and on its code points.
* A Go `int` that only ever holds a length or a count is a `Nat`.
* A function that returns `(value, err)` returns `Except String value`; a call of
  `os.Exit(1)` or `log.Fatal` ends the run and is an `Except.error` or a
  `Status.fatal`.
* Standard output is the list of the lines printed, in order.
-/

namespace Adret

/-- Equality of two results is decidable when it is on errors and on values. -/
instance decEqExcept {ε α : Type} [DecidableEq ε] [DecidableEq α] : DecidableEq (Except ε α)
  | Except.error a, Except.error b =>
    if h : a = b then isTrue (by rw [h]) else isFalse (fun h2 => h (Except.error.inj h2))
  | Except.ok a, Except.ok b =>
    if h : a = b then isTrue (by rw [h]) else isFalse (fun h2 => h (Except.ok.inj h2))
  | Except.error _, Except.ok _ => isFalse (fun h => Except.noConfusion h)
  | Except.ok _, Except.error _ => isFalse (fun h => Except.noConfusion h)

/-! ## Data model (`tree.go`, lines 20-39) -/

/-- The struct `Node` of `tree.go`: decrypted name, resource type, parent directory.
The field `Type` of the source is `NodeType` here, `Type` being a reserved word. -/
structure Node where
  Name : String
  NodeType : String
  Parent : String
  deriving DecidableEq, Repr

/-- The struct `Tree` of `tree.go`: the node list and the name of the root node. -/
structure Tree where
  Nodes : List Node
  rootNode : String
  deriving DecidableEq, Repr

/-- The function `CreateNode`: a node from its name, its type and its parent directory. -/
def CreateNode (name nodeType dir : String) : Node :=
  { Name := name, NodeType := nodeType, Parent := dir }

/-! ## Strings (`strings.Count`, `strings.HasPrefix`, `strings.Repeat`) -/

/-- The call `strings.Count(s, "/")`: the number of separators in `s`. -/
def countSep (s : String) : Nat :=
  s.data.count '/'

/-- The function `strings.HasPrefix(s, prefix)`:
`len(s) >= len(prefix) && s[:len(prefix)] == prefix`. -/
def HasPrefix (s pre : String) : Bool :=
  decide (pre.data.length ≤ s.data.length) && (s.data.take pre.data.length == pre.data)

/-- The function `strings.Repeat(s, count)`. -/
def Repeat (s : String) : Nat → String
  | 0 => ""
  | n + 1 => s ++ Repeat s n

/-! ## Queries over a node list -/

/-- The function `GetNodeByName` (`tree.go`, lines 42-52): the first node of the list
with the given name, or an error. -/
def GetNodeByName (name : String) : List Node → Except String Node
  | [] => Except.error ("getNodeByName: Node " ++ name ++ " doesn't exist")
  | n :: rest => if n.Name = name then Except.ok n else GetNodeByName name rest

/-- The function `GetChildrenNodes` (`tree.go`, lines 108-116): the loop appends the
name of every node whose `Parent` equals the prefix. -/
def GetChildrenNodes (pre : String) (nodes : List Node) : List String :=
  nodes.foldl (fun nodesWithPrefix n =>
    if n.Parent = pre then nodesWithPrefix ++ [n.Name] else nodesWithPrefix) []

/-- The function `GetDescendantNodes` (`tree.go`, lines 120-128): the loop appends the
name of every node whose `Parent` begins with the prefix. -/
def GetDescendantNodes (pre : String) (nodes : List Node) : List String :=
  nodes.foldl (fun nodesUnder n =>
    if HasPrefix n.Parent pre then nodesUnder ++ [n.Name] else nodesUnder) []

/-- One iteration of the loop of `GetRootDir` on the state `(minDepth, rootDir)`. -/
def rootStep (st : Nat × String) (n : Node) : Nat × String :=
  let nodeNameTmp := n.Name
  let tmpDepth := countSep nodeNameTmp
  if st.1 > tmpDepth then (tmpDepth, nodeNameTmp) else st

/-- The loop of `GetRootDir` (`tree.go`, lines 167-176), started at `minDepth := 1000`
and `rootDir := ""`. -/
def rootLoop (nodes : List Node) : Nat × String :=
  nodes.foldl rootStep (1000, "")

/-- The function `GetRootDir` (`tree.go`, lines 165-184): the pair `(rootDir, err)`.  The
error is set exactly when `rootDir` is still the empty string after the loop. -/
def GetRootDir (nodes : List Node) : String × Option String :=
  let rootDir := (rootLoop nodes).2
  if rootDir = "" then
    (rootDir, some "RemoteRootDir: failed to retrieve root dir from remote tree")
  else (rootDir, none)

/-! ## Paths (`path/filepath` of the Go standard library, Unix flavour)

The standard library is not part of the repository; `Clean`, `Dir` and `Base` follow its
documented behaviour with `/` as the only separator and no volume name. -/

/-- The elements of a path: the pieces between separators (`"a//b"` has the elements
`a`, the empty element and `b`). -/
def splitSep : List Char → List (List Char)
  | [] => [[]]
  | c :: cs =>
    if c = '/' then [] :: splitSep cs
    else match splitSep cs with
      | [] => [[c]]
      | e :: es => (c :: e) :: es

/-- The elements written one after the other with a separator between two of them. -/
def joinSep : List (List Char) → List Char
  | [] => []
  | [e] => e
  | e :: es => e ++ '/' :: joinSep es

/-- An ordinary path element: not empty, without separator, and neither `.` nor `..`. -/
def realElem (e : List Char) : Prop :=
  e ≠ [] ∧ '/' ∉ e ∧ e ≠ ['.'] ∧ e ≠ ['.', '.']

/-- One element read by the loop of `filepath.Clean`.  The state is the number of leading
`..` elements written so far and the stack of the real elements written after them.  An
empty element and a `.` element are skipped; a `..` element removes the last real element,
or, when there is none, is dropped on a rooted path and written on an unrooted one; any
other element is written. -/
def cleanStep (rooted : Bool) (st : Nat × List (List Char)) (e : List Char) :
    Nat × List (List Char) :=
  if e = [] then st
  else if e = ['.'] then st
  else if e = ['.', '.'] then
    match st.2 with
    | _ :: es => (st.1, es)
    | [] => if rooted then st else (st.1 + 1, [])
  else (st.1, e :: st.2)

/-- The function `filepath.Clean`: the shortest path equivalent to `path` by purely lexical
processing.  The empty path becomes `"."`. -/
def Clean (path : String) : String :=
  if path = "" then "."
  else
    let rooted := path.data.head? == some '/'
    let st := (splitSep path.data).foldl (cleanStep rooted) (0, [])
    let body := joinSep (List.replicate st.1 ['.', '.'] ++ st.2.reverse)
    if rooted then String.mk ('/' :: body)
    else if body = [] then "."
    else String.mk body

/-- The slice `path[:i+1]` with `i` the index of the last separator of `path` (`-1` when it
has none): everything up to and including the last separator. -/
def uptoLastSep (path : List Char) : List Char :=
  (path.reverse.dropWhile (fun c => c != '/')).reverse

/-- The path without its trailing separators. -/
def trimTrailingSep (path : List Char) : List Char :=
  (path.reverse.dropWhile (fun c => c == '/')).reverse

/-- The slice `path[i+1:]` with `i` the index of the last separator of `path`: what follows
the last separator, the whole path when it has none. -/
def afterLastSep (path : List Char) : List Char :=
  (path.reverse.takeWhile (fun c => c != '/')).reverse

/-- The function `filepath.Dir`: everything up to and including the last separator, then
cleaned (`Clean(path[:i+1])`). -/
def Dir (path : String) : String :=
  Clean (String.mk (uptoLastSep path.data))

/-- The function `filepath.Base`: the last element of the path.  Trailing separators are
removed first; the empty path gives `"."` and a path made of separators only gives `"/"`. -/
def Base (path : String) : String :=
  if path = "" then "."
  else
    let elem := afterLastSep (trimTrailingSep path.data)
    if elem = [] then "/" else String.mk elem

/-! ## Building the tree (`tree.go`, lines 55-81) -/

/-- Go's comparison `a < b` of two strings: lexicographic, code point by code point. -/
def lexLt : List Char → List Char → Bool
  | [], [] => false
  | [], _ :: _ => true
  | _ :: _, [] => false
  | a :: as, b :: bs =>
    if a.toNat < b.toNat then true
    else if b.toNat < a.toNat then false
    else lexLt as bs

/-- Go's comparison `a <= b` of two strings. -/
def strLe (a b : String) : Bool :=
  !lexLt b.data a.data

/-- The call `sort.Strings(keys)`: the keys in increasing order (an insertion sort). -/
def sortStrings (keys : List String) : List String :=
  List.insertionSort (fun a b => strLe a b = true) keys

/-- The map access `resources[name]`: the value of the key, or the zero value `""` when the
key is absent.  A resource map is given by the list of its entries, one per key, in the
order the `range` loop happens to meet them. -/
def mapGet (resources : List (String × String)) (name : String) : String :=
  (resources.lookup name).getD ""

/-- The second loop of `GetTreeStructFromResourcesMap` (lines 66-69): one node per key, in
the order of the keys. -/
def buildNodes (resources : List (String × String)) (keys : List String) : List Node :=
  keys.foldl (fun nodes name =>
    nodes ++ [CreateNode name (mapGet resources name) (Dir name)]) []

/-- The node list of `GetTreeStructFromResourcesMap` (lines 59-69): the keys of the map are
collected, sorted, and turned into nodes. -/
def builtNodes (resources : List (String × String)) : List Node :=
  let keys := sortStrings (resources.map Prod.fst)
  buildNodes resources keys

/-- The function `GetTreeStructFromResourcesMap` (`tree.go`, lines 55-81).  When
`GetRootDir` fails the source prints the error and exits: the result is the error. -/
def GetTreeStructFromResourcesMap (resources : List (String × String)) : Except String Tree :=
  let nodes := builtNodes resources
  match GetRootDir nodes with
  | (_, some err) => Except.error err
  | (rootNode, none) => Except.ok { Nodes := nodes, rootNode := rootNode }

/-! ## Rendering (`tree.go`, lines 203-304) -/

/-- How a run of the renderer ends: normally, by a fatal error (`log.Fatal`, `os.Exit`),
or with the recursion budget of the model exhausted. -/
inductive Status where
  | done : Status
  | fatal : String → Status
  | outOfFuel : Status
  deriving DecidableEq, Repr

/-- A run of the renderer: the lines printed on standard output and how the run ends. -/
structure Run where
  out : List String
  status : Status
  deriving DecidableEq, Repr

/-- The function `specialPrint` (`tree.go`, lines 203-242): the line it prints. -/
def specialPrint (name : String) (last : Bool) (inlast : Bool) : String :=
  let depth := countSep name
  let output := ""
  let tab := "   "
  let lastCharacter := if last then "└── " else "├── "
  let inlastCharacter := if inlast then "" else "|"
  let output :=
    if depth != 0 then
      let output := if depth == 1 then output ++ lastCharacter else output
      let output :=
        if depth == 2 then output ++ (inlastCharacter ++ tab ++ lastCharacter) else output
      let output :=
        if depth > 2 then
          output ++ (Repeat ("|" ++ tab) (depth - 2) ++ inlastCharacter ++ tab ++ lastCharacter)
        else output
      output
    else output
  output ++ Base name

/-- The loop of `PrintNode` over the children (`tree.go`, lines 259-269), from index `i` on;
`len` is `len(nodeWithPrefix)` and `recur` the recursive call of `PrintNode`.  A fatal error
or an exhausted budget in a child ends the loop. -/
def printLoop (recur : Node → Bool → Bool → Run) (nodes : List Node) (len : Nat)
    (inlast : Bool) : Nat → List String → Run
  | _, [] => { out := [], status := Status.done }
  | i, child :: rest =>
    let last := decide (len - 1 = i)
    let line := specialPrint child last inlast
    match GetNodeByName child nodes with
    | Except.error err => { out := [line], status := Status.fatal err }
    | Except.ok node =>
      let sub := recur node last inlast
      match sub.status with
      | Status.done =>
        let next := printLoop recur nodes len inlast (i + 1) rest
        { out := line :: (sub.out ++ next.out), status := next.status }
      | st => { out := line :: sub.out, status := st }

/-- The function `PrintNode` (`tree.go`, lines 246-273).  The first argument bounds the
depth of the recursion; the parameter `inlast` is overwritten by `last` before it is read. -/
def PrintNode : Nat → List Node → Node → Bool → Bool → Run
  | 0, _, _, _, _ => { out := [], status := Status.outOfFuel }
  | fuel + 1, nodes, node, last, _ =>
    if node.NodeType = "file" then { out := [], status := Status.done }
    else if node.NodeType = "directory" then
      let nodeWithPrefix := GetChildrenNodes node.Name nodes
      let inlast := last
      printLoop (PrintNode fuel nodes) nodes nodeWithPrefix.length inlast 0 nodeWithPrefix
    else { out := [], status := Status.fatal "Node/Resource with undefined type" }

/-- The body of `PrintTree` once the tree is built (`tree.go`, lines 278-303): the root
line, then `PrintNode` from the root node. -/
def PrintTreeStruct (fuel : Nat) (tree : Tree) : Run :=
  if tree.Nodes.length = 0 then
    { out := [], status := Status.fatal "PrintTree: Failed to convert JSON to Tree structure" }
  else
    let rootNodeName := tree.rootNode
    match GetNodeByName rootNodeName tree.Nodes with
    | Except.error err => { out := [], status := Status.fatal err }
    | Except.ok rootNode =>
      let line := specialPrint rootNodeName true false
      let sub := PrintNode fuel tree.Nodes rootNode false false
      { out := line :: sub.out, status := sub.status }

/-- The function `PrintTree` (`tree.go`, lines 276-304) on the decoded and decrypted
listing: the tree is built from the resource map, then rendered.  When the tree cannot be
built the error is printed and the run ends. -/
def PrintTree (fuel : Nat) (resources : List (String × String)) : Run :=
  match GetTreeStructFromResourcesMap resources with
  | Except.error err => { out := [err], status := Status.fatal err }
  | Except.ok tree => PrintTreeStruct fuel tree

/-! ## The nodes the renderer visits -/

/-- The `directoryComponent(name)` of the specification, "all but the last path segment":
the name without its last element and the separator before it, so that `a/b` gives `a`
and `a` gives the empty string. -/
def directoryComponent (name : String) : String :=
  String.mk (joinSep (splitSep name.data).dropLast)

/-! ## Sample inputs -/

/-- The resource map of the root-detection example: `a` (a directory) and `a/b` (a file). -/
def sampleResources : List (String × String) :=
  [("a/b", "file"), ("a", "directory")]

/-- The resource map of the rendering example. -/
def renderResources : List (String × String) :=
  [("a/c/d", "file"), ("a", "directory"), ("a/c", "directory"), ("a/b", "file")]

/-- A relative path with `n` separators: `a/a/.../a`. -/
def deepPath : Nat → List Char
  | 0 => ['a']
  | n + 1 => 'a' :: '/' :: deepPath n

/-- The node list of the root-detection example: `a` (a directory) and `a/b` (a file). -/
def sampleNodes : List Node :=
  [CreateNode "a" "directory" ".", CreateNode "a/b" "file" "a"]


/-! ## Utilities of the interactive client (`tree.go`, lines 132-153) -/

/-- The function `Exist` (`tree.go`, lines 133-136): `err == nil` after `GetNodeByName`. -/
def Exist (resourceName : String) (nodes : List Node) : Bool :=
  match GetNodeByName resourceName nodes with
  | Except.ok _ => true
  | Except.error _ => false

/-- The function `IsDir` (`tree.go`, lines 146-153).  When the node is not found the source
prints the error and exits: the result is the error.  The constant `filesystem.DIRECTORY`
belongs to a package outside the sources at hand and is a parameter. -/
def IsDir (DIRECTORY : String) (resourceName : String) (nodes : List Node) :
    Except String Bool :=
  match GetNodeByName resourceName nodes with
  | Except.error err => Except.error err
  | Except.ok node => Except.ok (decide (node.NodeType = DIRECTORY))

/-- A node list with two names of minimum depth, `a` before `c`, after a deeper name. -/
def tieNodes : List Node :=
  [CreateNode "b/x" "file" "b", CreateNode "a" "directory" ".", CreateNode "c" "directory" ".",
    CreateNode "a/y" "file" "a"]

/-- A resource map whose only entry is the directory `.`, its own parent directory. -/
def dotResources : List (String × String) :=
  [(".", "directory")]

/-- A resource map whose only entry is the directory `/`, its own parent directory. -/
def slashResources : List (String × String) :=
  [("/", "directory")]

/-- A listing rooted at `.`: the directory `.` and a file `a` in it. -/
def dotListing : List (String × String) :=
  [("a", "file"), (".", "directory")]

/-- A resource map whose names all have a separator: the directory `x/a` and a file in it. -/
def nestedResources : List (String × String) :=
  [("x/a", "directory"), ("x/a/b", "file")]

/-! ## The listener (`cmd/playground/main.go`)

The handler is a function of what it reads of the request (the value of the `Content-Type`
header and the body) and of the collaborators outside the sources at hand: the header
parser of `gddo/httputil/header`, the decoder of `encoding/json` and the function
`ubac.Ls`.  The collaborators are parameters. -/

/-- What `decodeJSONBody` reads of a request: `r.Header.Get("Content-Type")`, empty when the
header is absent, and the body. -/
structure Request where
  contentType : String
  body : String
  deriving DecidableEq, Repr

/-- The errors of the first `dec.Decode`, as the `switch` of `decodeJSONBody` tells them
apart (`main.go`, lines 48-76), in the order of its cases. -/
inductive JsonError where
  | syntaxError (offset : Nat) : JsonError
  | unexpectedEOF : JsonError
  | unmarshalTypeError (field : String) (offset : Nat) : JsonError
  | unknownField (fieldName : String) : JsonError
  | eof : JsonError
  | tooLarge : JsonError
  | other (msg : String) : JsonError
  deriving DecidableEq, Repr

/-- What the decoder makes of a body read through `http.MaxBytesReader(w, r.Body, 1048576)`
with `DisallowUnknownFields`: the first `Decode` fails, or it fills the field `name` of the
destination and `single` tells whether the second `Decode` returns `io.EOF`. -/
inductive Decoded where
  | failed (err : JsonError) : Decoded
  | value (name : String) (single : Bool) : Decoded
  deriving DecidableEq, Repr

/-- The collaborators of the listener. `ParseValueAndParams` gives the media type of a
header value; `Decode` is the decoder on a body; `quote` is the verb `%q` of `fmt`; `Ls` is
`ubac.Ls`, which returns `(content, resourceType)` or an error. -/
structure Lib where
  ParseValueAndParams : String → String
  Decode : String → Decoded
  quote : String → String
  Ls : String → String → Except String (String × String)

/-- The non-nil errors `decodeJSONBody` returns: a `*malformedRequest` with its status and
message, or another error. -/
inductive RequestError where
  | malformed (status : Nat) (msg : String) : RequestError
  | other (msg : String) : RequestError
  deriving DecidableEq, Repr

/-- The part of `decodeJSONBody` after the check of the header (`main.go`, lines 38-85):
the outcome of the two calls of `Decode` on the body.  The result is the decoded field
`name` when the function returns `nil`. -/
def decodeBody (decode : String → Decoded) (quote : String → String) (body : String) :
    Except RequestError String :=
  match decode body with
  | Decoded.failed (JsonError.syntaxError offset) =>
    Except.error (RequestError.malformed 400
      ("Request body contains badly-formed JSON (at position " ++ toString offset ++ ")"))
  | Decoded.failed JsonError.unexpectedEOF =>
    Except.error (RequestError.malformed 400 "Request body contains badly-formed JSON")
  | Decoded.failed (JsonError.unmarshalTypeError field offset) =>
    Except.error (RequestError.malformed 400
      ("Request body contains an invalid value for the " ++ quote field
        ++ " field (at position " ++ toString offset ++ ")"))
  | Decoded.failed (JsonError.unknownField fieldName) =>
    Except.error (RequestError.malformed 400
      ("Request body contains unknown field " ++ fieldName))
  | Decoded.failed JsonError.eof =>
    Except.error (RequestError.malformed 400 "Request body must not be empty")
  | Decoded.failed JsonError.tooLarge =>
    Except.error (RequestError.malformed 413 "Request body must not be larger than 1MB")
  | Decoded.failed (JsonError.other msg) => Except.error (RequestError.other msg)
  | Decoded.value name single =>
    if single then Except.ok name
    else Except.error (RequestError.malformed 400
      "Request body must only contain a single JSON object")

/-- The function `decodeJSONBody` (`main.go`, lines 29-86). -/
def decodeJSONBody (lib : Lib) (r : Request) : Except RequestError String :=
  if r.contentType ≠ "" then
    let value := lib.ParseValueAndParams r.contentType
    if value ≠ "application/json" then
      Except.error (RequestError.malformed 415 "Content-Type header is not application/json")
    else decodeBody lib.Decode lib.quote r.body
  else decodeBody lib.Decode lib.quote r.body

/-- A flag of a verb: one of the characters `#`, `0`, `+`, `-` and the blank. -/
def isFlag (c : Char) : Bool :=
  c == '#' || c == '0' || c == '+' || c == '-' || c == ' '

/-- The loop of the function `parsenum` of `fmt`: the digits at the head of the text are
read.  The result tells whether a number was read and gives the text after it; a number
above a million makes the function give up and jump to the end of the text. -/
def parsenumLoop : Nat → Bool → List Char → Bool × List Char
  | _, isnum, [] => (isnum, [])
  | num, isnum, c :: cs =>
    if c.isDigit then
      if num > 1000000 then (false, [])
      else parsenumLoop (num * 10 + (c.toNat - 48)) true cs
    else (isnum, c :: cs)

/-- The function `parsenum` of `fmt` on the rest of the format. -/
def parsenum (s : List Char) : Bool × List Char :=
  parsenumLoop 0 false s

/-- What the method `argNumber` of `fmt` finds at the head of the text: `seen` tells
whether an opening bracket is there (there is no operand to index, so the index is bad),
`found` whether a well-formed index `[n]` was read, `rest` is the text after it. -/
structure ArgIndex where
  found : Bool
  seen : Bool
  rest : List Char

/-- The method `argNumber` of `fmt` when no operand is given.  A bracket with fewer than
three characters left, or without closing bracket, is skipped alone; otherwise everything
up to the closing bracket is skipped. -/
def argNumber (s : List Char) : ArgIndex :=
  match s with
  | '[' :: more =>
    if more.length + 1 < 3 then { found := false, seen := true, rest := more }
    else
      match more.dropWhile (fun c => c != ']') with
      | [] => { found := false, seen := true, rest := more }
      | _ :: after =>
        let n := parsenum (more.takeWhile (fun c => c != ']'))
        { found := n.1 && n.2.isEmpty, seen := true, rest := after }
  | _ => { found := false, seen := false, rest := s }

/-- The state of `doPrintf` while it reads one verb: the text written so far for the verb,
the rest of the format, and the variables `afterIndex` and `goodArgNum`. -/
structure VerbState where
  written : List Char
  rest : List Char
  afterIndex : Bool
  goodArgNum : Bool

/-- The width of a verb: a star asks for an operand, which is missing; otherwise digits. -/
def widthStep (a : ArgIndex) : VerbState :=
  match a.rest with
  | '*' :: rest =>
    { written := "%!(BADWIDTH)".data, rest := rest, afterIndex := false,
      goodArgNum := !a.seen }
  | rest =>
    let n := parsenum rest
    { written := [], rest := n.2, afterIndex := a.found,
      goodArgNum := !a.seen && !(a.found && n.1) }

/-- The precision of a verb: after a dot, an index, then a star (the operand is missing) or
digits. -/
def precisionStep (w : VerbState) : VerbState :=
  match w.rest with
  | '.' :: s =>
    let good := w.goodArgNum && !w.afterIndex
    let a := argNumber s
    match a.rest with
    | '*' :: rest =>
      { written := w.written ++ "%!(BADPREC)".data, rest := rest, afterIndex := false,
        goodArgNum := good && !a.seen }
    | rest =>
      { written := w.written, rest := (parsenum rest).2, afterIndex := a.found,
        goodArgNum := good && !a.seen }
  | _ => w

/-- The index read just before the verb, unless one was read just before. -/
def indexStep (p : VerbState) : VerbState :=
  if p.afterIndex then p
  else
    let a := argNumber p.rest
    { written := p.written, rest := a.rest, afterIndex := a.found,
      goodArgNum := p.goodArgNum && !a.seen }

/-- One verb, read after its `%`: the text written for it and the rest of the format, or
no rest when the format ends before the verb.  The verb `%` writes a `%`; any other verb
has no operand and writes the marker of a bad index or of a missing operand. -/
def verbStep (s : List Char) : List Char × Option (List Char) :=
  let f := indexStep (precisionStep (widthStep (argNumber (s.dropWhile isFlag))))
  match f.rest with
  | [] => (f.written ++ "%!(NOVERB)".data, none)
  | verb :: rest =>
    if verb = '%' then (f.written ++ ['%'], some rest)
    else if !f.goodArgNum then
      (f.written ++ "%!".data ++ [verb] ++ "(BADINDEX)".data, some rest)
    else (f.written ++ "%!".data ++ [verb] ++ "(MISSING)".data, some rest)

/-- The loop `doPrintf` of `fmt` without operand: the text up to the next `%` is copied,
then the verb is read.  The first argument bounds the number of verbs read. -/
def doPrintf : Nat → List Char → List Char
  | 0, _ => []
  | fuel + 1, format =>
    let literal := format.takeWhile (fun c => c != '%')
    match format.dropWhile (fun c => c != '%') with
    | [] => literal
    | _ :: s =>
      match verbStep s with
      | (written, none) => literal ++ written
      | (written, some rest) => literal ++ written ++ doPrintf fuel rest

/-- The text `fmt.Fprintf(w, format)` writes, the format being given without operand.  A
format has fewer verbs than characters, so the bound is never reached. -/
def Fprintf (format : String) : String :=
  String.mk (doPrintf (format.data.length + 1) format.data)

/-- Stand-ins for the collaborators on the sample requests: a header value without
parameter is its own media type, every body decodes to the single object with the name
`x`, and the store knows no resource. -/
def sampleLib : Lib :=
  { ParseValueAndParams := fun value => value,
    Decode := fun _ => Decoded.value "x" true,
    quote := fun s => "\"" ++ s ++ "\"",
    Ls := fun name _ => Except.error ("resource " ++ name ++ " not found") }

/-- The children of a node, as nodes, in the order of the node list. -/
def childNodes (nodes : List Node) (node : Node) : List Node :=
  nodes.filter (fun c => decide (c.Parent = node.Name))

/-- The nodes below a node in depth-first pre-order, the children of each node taken in
the order of the node list: each child is followed by the nodes below it.  The first
argument bounds the depth explored. -/
def preorderBelow : Nat → List Node → Node → List Node
  | 0, _, _ => []
  | fuel + 1, nodes, node =>
    (childNodes nodes node).flatMap (fun c => c :: preorderBelow fuel nodes c)

/-- Following `Parent` links `j` times from the node `x` leads to the node `y`, every node
met on the way being a node of the list. -/
inductive Up (nodes : List Node) : Node → Node → Nat → Prop where
  | zero (x : Node) : Up nodes x x 0
  | succ (x p y : Node) (j : Nat) :
      p ∈ nodes → p.Name = x.Parent → Up nodes p y j → Up nodes x y (j + 1)

/-- The node list of the rendering example. -/
def renderNodes : List Node :=
  [CreateNode "a" "directory" ".", CreateNode "a/b" "file" "a",
    CreateNode "a/c" "directory" "a", CreateNode "a/c/d" "file" "a/c"]

/-! ## The final path segment, in the words of the specification -/

/-- The final path segment of a name: the last of the pieces the separators cut the name
into, that is what follows the last separator (the whole name when it has none). -/
def finalSegment (name : String) : String :=
  String.mk ((splitSep name.data).getLastD [])

/-! ## The loops as filters -/

theorem foldl_append_if (p : Node → Bool) (nodes : List Node) (acc : List String) :
    nodes.foldl (fun names n => if p n = true then names ++ [n.Name] else names) acc
      = acc ++ (nodes.filter p).map Node.Name := by
  induction nodes generalizing acc with
  | nil => simp
  | cons n rest ih =>
    cases hp : p n <;> simp [List.foldl_cons, List.filter_cons, hp, ih]

theorem children_eq_filter (pre : String) (nodes : List Node) :
    GetChildrenNodes pre nodes
      = (nodes.filter (fun n => decide (n.Parent = pre))).map Node.Name := by
  have h := foldl_append_if (fun n => decide (n.Parent = pre)) nodes []
  simpa [GetChildrenNodes] using h

theorem descendants_eq_filter (pre : String) (nodes : List Node) :
    GetDescendantNodes pre nodes
      = (nodes.filter (fun n => HasPrefix n.Parent pre)).map Node.Name := by
  have h := foldl_append_if (fun n => HasPrefix n.Parent pre) nodes []
  simpa [GetDescendantNodes] using h

theorem hasPrefix_iff (s pre : String) : HasPrefix s pre = true ↔ pre.data <+: s.data := by
  unfold HasPrefix
  rw [List.prefix_iff_eq_take]
  constructor
  · intro h
    simp only [Bool.and_eq_true, decide_eq_true_eq, beq_iff_eq] at h
    exact h.2.symm
  · intro h
    simp only [Bool.and_eq_true, decide_eq_true_eq, beq_iff_eq]
    refine ⟨?_, h.symm⟩
    have := congrArg List.length h
    rw [List.length_take] at this
    omega

theorem hasPrefix_self (s : String) : HasPrefix s s = true :=
  (hasPrefix_iff s s).2 (List.prefix_refl _)


/-! ## Children and descendants -/

/-- C3: `GetChildrenNodes p nodes` is exactly the list of the names of the nodes whose
`Parent` equals `p`, in the order of the node list: a name is returned if and only if it is
the name of a node with that parent, so a node further down (whose parent is a child of
`p`) is not returned. -/
theorem C3_children_exactly_parent_eq (p : String) (nodes : List Node) :
    GetChildrenNodes p nodes
        = (nodes.filter (fun n => decide (n.Parent = p))).map Node.Name
      ∧ (∀ name, name ∈ GetChildrenNodes p nodes ↔ ∃ n ∈ nodes, n.Parent = p ∧ n.Name = name)
      ∧ GetChildrenNodes "a"
          [CreateNode "a" "directory" ".", CreateNode "a/c" "directory" "a",
            CreateNode "a/c/d" "file" "a/c"] = ["a/c"] := by
  refine ⟨children_eq_filter p nodes, ?_, by decide⟩
  intro name
  rw [children_eq_filter, List.mem_map]
  constructor
  · rintro ⟨n, hn, hname⟩
    rw [List.mem_filter] at hn
    exact ⟨n, hn.1, by simpa using hn.2, hname⟩
  · rintro ⟨n, hn, hparent, hname⟩
    exact ⟨n, List.mem_filter.2 ⟨hn, by simpa using hparent⟩, hname⟩

/-- C4: the children of `p` form a sublist of the descendants of `p` (same relative
order), so every child name is also a descendant name. -/
theorem C4_children_sublist_descendants (p : String) (nodes : List Node) :
    List.Sublist (GetChildrenNodes p nodes) (GetDescendantNodes p nodes)
      ∧ ∀ name ∈ GetChildrenNodes p nodes, name ∈ GetDescendantNodes p nodes := by
  have hsub : List.Sublist (GetChildrenNodes p nodes) (GetDescendantNodes p nodes) := by
    rw [children_eq_filter, descendants_eq_filter]
    have hfil : nodes.filter (fun n => decide (n.Parent = p))
        = (nodes.filter (fun n => HasPrefix n.Parent p)).filter
            (fun n => decide (n.Parent = p)) := by
      rw [List.filter_filter]
      apply List.filter_congr
      intro n _
      by_cases h : n.Parent = p
      · simp [h, hasPrefix_self]
      · simp [h]
    rw [hfil]
    exact (List.filter_sublist _).map Node.Name
  exact ⟨hsub, fun name h => hsub.subset h⟩

/-- C5: `GetDescendantNodes p nodes` is exactly the list of the names of the nodes whose
`Parent` has `p` as a plain string prefix, in the order of the node list.  The test knows
nothing of path segments: under the prefix `foo` a node whose parent is `foo2` is returned,
and under the empty prefix every node is returned. -/
theorem C5_descendants_exactly_string_prefix (p : String) (nodes : List Node) :
    GetDescendantNodes p nodes
        = (nodes.filter (fun n => decide (p.data <+: n.Parent.data))).map Node.Name
      ∧ (∀ name nodeType : String,
          GetDescendantNodes "foo" [CreateNode name nodeType "foo2"] = [name])
      ∧ GetDescendantNodes "" nodes = nodes.map Node.Name := by
  refine ⟨?_, ?_, ?_⟩
  · rw [descendants_eq_filter]
    congr 1
    apply List.filter_congr
    intro n _
    by_cases h : p.data <+: n.Parent.data
    · simp [h, (hasPrefix_iff n.Parent p).2 h]
    · have h2 : HasPrefix n.Parent p = false := by
        cases hb : HasPrefix n.Parent p
        · rfl
        · exact absurd ((hasPrefix_iff n.Parent p).1 hb) h
      simp [h, h2]
  · intro name nodeType
    rw [descendants_eq_filter]
    have h : HasPrefix "foo2" "foo" = true := by decide
    simp [CreateNode, h]
  · rw [descendants_eq_filter]
    have h : ∀ n : Node, HasPrefix n.Parent "" = true := fun n =>
      (hasPrefix_iff n.Parent "").2 List.nil_prefix
    simp [h]


/-! ## Root detection -/

theorem rootStep_fst_le (st : Nat × String) (n : Node) :
    (rootStep st n).1 ≤ st.1 ∧ (rootStep st n).1 ≤ countSep n.Name := by
  unfold rootStep
  by_cases h : st.1 > countSep n.Name
  · simp only [h, if_true]; omega
  · simp only [h, if_false]; omega

theorem rootFold_fst_le (nodes : List Node) (st : Nat × String) :
    (nodes.foldl rootStep st).1 ≤ st.1
      ∧ ∀ n ∈ nodes, (nodes.foldl rootStep st).1 ≤ countSep n.Name := by
  induction nodes generalizing st with
  | nil => simp
  | cons a rest ih =>
    have hstep := rootStep_fst_le st a
    have hrest := ih (rootStep st a)
    rw [List.foldl_cons]
    refine ⟨le_trans hrest.1 hstep.1, ?_⟩
    intro n hn
    rcases List.mem_cons.1 hn with h | h
    · subst h; exact le_trans hrest.1 hstep.2
    · exact hrest.2 n h

theorem rootFold_unchanged_or_name (nodes : List Node) (st : Nat × String) :
    nodes.foldl rootStep st = st
      ∨ ∃ n ∈ nodes, (nodes.foldl rootStep st).2 = n.Name
          ∧ (nodes.foldl rootStep st).1 = countSep n.Name := by
  induction nodes generalizing st with
  | nil => left; rfl
  | cons a rest ih =>
    rw [List.foldl_cons]
    rcases ih (rootStep st a) with h | ⟨n, hn, h1, h2⟩
    · rw [h]
      by_cases hlt : st.1 > countSep a.Name
      · right
        refine ⟨a, List.mem_cons_self _ _, ?_, ?_⟩ <;> simp [rootStep, hlt]
      · left
        simp [rootStep, hlt]
    · right
      exact ⟨n, List.mem_cons_of_mem _ hn, h1, h2⟩

theorem rootLoop_name_of_ne_empty (nodes : List Node) (h : (rootLoop nodes).2 ≠ "") :
    ∃ n ∈ nodes, (rootLoop nodes).2 = n.Name
      ∧ ∀ m ∈ nodes, countSep n.Name ≤ countSep m.Name := by
  rcases rootFold_unchanged_or_name nodes (1000, "") with h0 | ⟨n, hn, h1, h2⟩
  · exfalso
    apply h
    show (nodes.foldl rootStep (1000, "")).2 = ""
    rw [h0]
  · refine ⟨n, hn, h1, ?_⟩
    intro m hm
    have := (rootFold_fst_le nodes (1000, "")).2 m hm
    omega

theorem rootLoop_name_of_shallow (nodes : List Node)
    (h : ∃ n ∈ nodes, countSep n.Name < 1000) :
    ∃ n ∈ nodes, (rootLoop nodes).2 = n.Name
      ∧ ∀ m ∈ nodes, countSep n.Name ≤ countSep m.Name := by
  obtain ⟨k, hk, hlt⟩ := h
  have hle := (rootFold_fst_le nodes (1000, "")).2 k hk
  rcases rootFold_unchanged_or_name nodes (1000, "") with h0 | ⟨n, hn, h1, h2⟩
  · exfalso
    rw [h0] at hle
    simp at hle
    omega
  · refine ⟨n, hn, h1, ?_⟩
    intro m hm
    have := (rootFold_fst_le nodes (1000, "")).2 m hm
    omega

theorem getRootDir_fst (nodes : List Node) : (GetRootDir nodes).1 = (rootLoop nodes).2 := by
  unfold GetRootDir
  by_cases h : (rootLoop nodes).2 = "" <;> simp [h]

theorem getRootDir_snd_none (nodes : List Node) :
    (GetRootDir nodes).2 = none ↔ (rootLoop nodes).2 ≠ "" := by
  unfold GetRootDir
  by_cases h : (rootLoop nodes).2 = "" <;> simp [h]

theorem countSep_deepPath (n : Nat) : countSep (String.mk (deepPath n)) = n := by
  induction n with
  | zero => decide
  | succ k ih =>
    have h : countSep (String.mk (deepPath (k + 1))) = countSep (String.mk (deepPath k)) + 1 := by
      simp [countSep, deepPath]
    rw [h, ih]

theorem deepPath_ne_nil (n : Nat) : deepPath n ≠ [] := by
  cases n <;> simp [deepPath]

theorem getRootDir_single_deep (name nodeType parent : String) (h : 1000 ≤ countSep name) :
    GetRootDir [CreateNode name nodeType parent]
      = ("", some "RemoteRootDir: failed to retrieve root dir from remote tree") := by
  have hnot : ¬ (1000 > countSep name) := by omega
  simp [GetRootDir, rootLoop, rootStep, CreateNode, hnot]

theorem sortStrings_single (k : String) : sortStrings [k] = [k] := by
  simp [sortStrings, List.insertionSort, List.orderedInsert]

theorem getTree_ok (resources : List (String × String)) (tree : Tree)
    (h : GetTreeStructFromResourcesMap resources = Except.ok tree) :
    tree.Nodes = builtNodes resources
      ∧ tree.rootNode = (GetRootDir tree.Nodes).1
      ∧ (GetRootDir tree.Nodes).2 = none := by
  simp only [GetTreeStructFromResourcesMap] at h
  generalize builtNodes resources = built at h
  rcases hres : GetRootDir built with ⟨root, err⟩
  rw [hres] at h
  cases err with
  | some e => simp at h
  | none =>
    simp only [Except.ok.injEq] at h
    subst h
    simp [hres]

/-- C1: on the one-node list whose only name `a/a/.../a` has 1000 separators (the list the
tree builder produces from the one-entry resource map with that key) `GetRootDir` returns
the empty string together with the error, not the name of the node: the loop starts at
`minDepth := 1000` and only a smaller depth replaces it.  On the two-node example of the
claim it returns `a`. -/
theorem C1_GetRootDir_fails_at_depth_1000 :
    (∀ nodeType parent : String,
        GetRootDir [CreateNode (String.mk (deepPath 1000)) nodeType parent]
          = ("", some "RemoteRootDir: failed to retrieve root dir from remote tree"))
      ∧ countSep (String.mk (deepPath 1000)) = 1000
      ∧ String.mk (deepPath 1000) ≠ ""
      ∧ GetTreeStructFromResourcesMap [(String.mk (deepPath 1000), "directory")]
          = Except.error "RemoteRootDir: failed to retrieve root dir from remote tree"
      ∧ GetRootDir sampleNodes = ("a", none) := by
  have hdeep : 1000 ≤ countSep (String.mk (deepPath 1000)) := by
    rw [countSep_deepPath]
  refine ⟨fun nodeType parent => getRootDir_single_deep _ nodeType parent hdeep,
    countSep_deepPath 1000, ?_, ?_, by decide⟩
  · intro h
    exact deepPath_ne_nil 1000 (congrArg String.data h)
  · unfold GetTreeStructFromResourcesMap
    simp only [builtNodes, List.map_cons, List.map_nil, sortStrings_single, buildNodes,
      List.foldl_cons, List.foldl_nil, List.nil_append]
    rw [getRootDir_single_deep _ _ _ hdeep]

/-- C2: `GetRootDir` on the empty node list returns an error; whenever it returns no
error the root it returns is the name of a node of the list; accordingly the tree builder
fails on the empty resource map and every tree it returns has a node named by its root. -/
theorem C2_GetRootDir_error_or_node_name (nodes : List Node)
    (resources : List (String × String)) :
    (GetRootDir []).2 = some "RemoteRootDir: failed to retrieve root dir from remote tree"
      ∧ ((GetRootDir nodes).2 = none → ∃ n ∈ nodes, n.Name = (GetRootDir nodes).1)
      ∧ GetTreeStructFromResourcesMap []
          = Except.error "RemoteRootDir: failed to retrieve root dir from remote tree"
      ∧ (∀ tree, GetTreeStructFromResourcesMap resources = Except.ok tree →
          ∃ n ∈ tree.Nodes, n.Name = tree.rootNode) := by
  refine ⟨by decide, ?_, by decide, ?_⟩
  · intro h
    obtain ⟨n, hn, hname, _⟩ :=
      rootLoop_name_of_ne_empty nodes ((getRootDir_snd_none nodes).1 h)
    exact ⟨n, hn, by rw [getRootDir_fst, hname]⟩
  · intro tree htree
    obtain ⟨hnodes, hroot, herr⟩ := getTree_ok resources tree htree
    obtain ⟨n, hn, hname, _⟩ :=
      rootLoop_name_of_ne_empty tree.Nodes ((getRootDir_snd_none tree.Nodes).1 herr)
    exact ⟨n, hn, by rw [hroot, getRootDir_fst, hname]⟩

/-- C2 (witness): on the two-node example no error is returned and the root `a` is the name
of the first node. -/
theorem C2_GetRootDir_error_or_node_name_witness :
    ∃ n ∈ sampleNodes, n.Name = (GetRootDir sampleNodes).1 :=
  (C2_GetRootDir_error_or_node_name sampleNodes []).2.1 (by decide)


/-! ## The order of the keys -/

theorem char_lt_iff (a b : Char) : a.toNat < b.toNat ↔ a < b := Iff.rfl

theorem lexLt_iff : ∀ a b : List Char, lexLt a b = true ↔ a < b
  | [], [] => by
    simp only [lexLt]
    constructor
    · intro h; cases h
    · intro h; cases h
  | [], b :: bs => by
    simp only [lexLt]
    exact ⟨fun _ => List.Lex.nil, fun _ => trivial⟩
  | a :: as, [] => by
    simp only [lexLt]
    constructor
    · intro h; cases h
    · intro h; cases h
  | a :: as, b :: bs => by
    have ih := lexLt_iff as bs
    simp only [lexLt]
    by_cases h1 : a.toNat < b.toNat
    · simp only [h1, if_true, true_iff]
      exact List.Lex.rel ((char_lt_iff a b).1 h1)
    · by_cases h2 : b.toNat < a.toNat
      · simp only [h1, h2, if_true, if_false]
        constructor
        · intro h; cases h
        · intro h
          cases h with
          | rel h => exact absurd ((char_lt_iff a b).2 h) h1
          | cons _ => exact absurd h2 h1
      · simp only [h1, h2, if_false]
        rw [ih]
        have hab : a = b :=
          le_antisymm (not_lt.1 (fun h => h2 ((char_lt_iff b a).2 h)))
            (not_lt.1 (fun h => h1 ((char_lt_iff a b).2 h)))
        subst hab
        constructor
        · intro h
          exact List.Lex.cons h
        · intro h
          cases h with
          | rel h => exact absurd ((char_lt_iff a a).2 h) h1
          | cons h => exact h

theorem strLe_iff (a b : String) : strLe a b = true ↔ a ≤ b := by
  unfold strLe
  rw [← not_lt, String.lt_iff_toList_lt]
  have h := lexLt_iff b.data a.data
  cases hb : lexLt b.data a.data
  · rw [hb] at h
    simp only [Bool.not_false, true_iff]
    intro hlt
    exact absurd (h.2 hlt) (by simp)
  · rw [hb] at h
    simp only [Bool.not_true, Bool.false_eq_true, false_iff, not_not]
    exact h.1 rfl

theorem strLe_total : IsTotal String (fun a b => strLe a b = true) :=
  ⟨fun a b => by rw [strLe_iff, strLe_iff]; exact le_total a b⟩

theorem strLe_trans : IsTrans String (fun a b => strLe a b = true) :=
  ⟨fun a b c => by rw [strLe_iff, strLe_iff, strLe_iff]; exact le_trans⟩

theorem sortStrings_perm (keys : List String) : List.Perm (sortStrings keys) keys :=
  List.perm_insertionSort _ keys

theorem sortStrings_sorted_le (keys : List String) :
    List.Sorted (fun a b : String => a ≤ b) (sortStrings keys) := by
  haveI := strLe_total
  haveI := strLe_trans
  have h := List.sorted_insertionSort (fun a b : String => strLe a b = true) keys
  exact List.Pairwise.imp (fun {a b} hab => (strLe_iff a b).1 hab) h

theorem sortStrings_sorted_lt (keys : List String) (h : keys.Nodup) :
    List.Sorted (fun a b : String => a < b) (sortStrings keys) :=
  (sortStrings_sorted_le keys).lt_of_le ((sortStrings_perm keys).nodup_iff.2 h)

theorem buildNodes_eq_map (resources : List (String × String)) (keys : List String) :
    buildNodes resources keys
      = keys.map (fun name => CreateNode name (mapGet resources name) (Dir name)) := by
  have h : ∀ (ks : List String) (acc : List Node),
      ks.foldl (fun nodes name =>
          nodes ++ [CreateNode name (mapGet resources name) (Dir name)]) acc
        = acc ++ ks.map (fun name => CreateNode name (mapGet resources name) (Dir name)) := by
    intro ks
    induction ks with
    | nil => intro acc; simp
    | cons k rest ih => intro acc; simp [List.foldl_cons, ih]
  simpa [buildNodes] using h keys []

theorem buildNodes_names (resources : List (String × String)) (keys : List String) :
    (buildNodes resources keys).map Node.Name = keys := by
  rw [buildNodes_eq_map, List.map_map]
  have : (Node.Name ∘ fun name => CreateNode name (mapGet resources name) (Dir name)) = id := by
    funext name; rfl
  rw [this, List.map_id]

theorem mapGet_of_mem (resources : List (String × String)) (k v : String)
    (hnodup : (resources.map Prod.fst).Nodup) (h : (k, v) ∈ resources) :
    mapGet resources k = v := by
  induction resources with
  | nil => cases h
  | cons e rest ih =>
    obtain ⟨k0, v0⟩ := e
    simp only [List.map_cons, List.nodup_cons] at hnodup
    rcases List.mem_cons.1 h with heq | hmem
    · cases heq
      simp [mapGet, List.lookup]
    · have hne : k ≠ k0 := by
        intro hk
        subst hk
        exact hnodup.1 (List.mem_map.2 ⟨(k, v), hmem, rfl⟩)
      have hbeq : (k == k0) = false := by simpa using hne
      have := ih hnodup.2 hmem
      simpa [mapGet, List.lookup, hbeq] using this


/-! ## `Dir` on ordinary names -/

theorem mk_ne_empty (l : List Char) (h : l ≠ []) : String.mk l ≠ "" := by
  intro he
  exact h (congrArg String.data he)

theorem splitSep_segment (e rest : List Char) (hsep : '/' ∉ e) :
    splitSep (e ++ '/' :: rest) = e :: splitSep rest := by
  induction e with
  | nil => simp [splitSep]
  | cons c cs ih =>
    have hc : c ≠ '/' := fun h => hsep (by rw [h]; exact List.mem_cons_self _ _)
    have hcs : '/' ∉ cs := fun h => hsep (List.mem_cons_of_mem _ h)
    have hstep : splitSep (c :: (cs ++ '/' :: rest))
        = match splitSep (cs ++ '/' :: rest) with
          | [] => [[c]]
          | e :: es => (c :: e) :: es := by
      simp only [splitSep, hc, if_false]
    rw [List.cons_append, hstep, ih hcs]

theorem splitSep_bare (e : List Char) (hsep : '/' ∉ e) : splitSep e = [e] := by
  induction e with
  | nil => rfl
  | cons c cs ih =>
    have hc : c ≠ '/' := fun h => hsep (by rw [h]; exact List.mem_cons_self _ _)
    have hcs : '/' ∉ cs := fun h => hsep (List.mem_cons_of_mem _ h)
    simp only [splitSep, hc, if_false, ih hcs]

theorem splitSep_joinSep (elems : List (List Char)) (rest : List Char)
    (hne : elems ≠ []) (hreal : ∀ e ∈ elems, realElem e) :
    splitSep (joinSep elems ++ '/' :: rest) = elems ++ splitSep rest := by
  induction elems with
  | nil => exact absurd rfl hne
  | cons e es ih =>
    have he := hreal e (List.mem_cons_self _ _)
    cases es with
    | nil => simp only [joinSep, List.singleton_append]; exact splitSep_segment e rest he.2.1
    | cons e2 es2 =>
      have hrest := ih (by simp) (fun x hx => hreal x (List.mem_cons_of_mem _ hx))
      simp only [joinSep, List.append_assoc, List.cons_append] at hrest ⊢
      rw [splitSep_segment e _ he.2.1, hrest]

theorem cleanStep_real (rooted : Bool) (st : Nat × List (List Char)) (e : List Char)
    (h : realElem e) : cleanStep rooted st e = (st.1, e :: st.2) := by
  unfold cleanStep
  simp only [h.1, h.2.2.1, h.2.2.2, if_false]

theorem cleanFold_real (rooted : Bool) (elems : List (List Char))
    (hreal : ∀ e ∈ elems, realElem e) (st : Nat × List (List Char)) :
    elems.foldl (cleanStep rooted) st = (st.1, elems.reverse ++ st.2) := by
  induction elems generalizing st with
  | nil => simp
  | cons e es ih =>
    rw [List.foldl_cons, cleanStep_real rooted st e (hreal e (List.mem_cons_self _ _)),
      ih (fun x hx => hreal x (List.mem_cons_of_mem _ hx))]
    simp

theorem joinSep_head (elems : List (List Char)) (hne : elems ≠ [])
    (hreal : ∀ e ∈ elems, realElem e) :
    ∃ c cs, joinSep elems = c :: cs ∧ c ≠ '/' := by
  cases elems with
  | nil => exact absurd rfl hne
  | cons e es =>
    have he := hreal e (List.mem_cons_self _ _)
    cases e with
    | nil => exact absurd rfl he.1
    | cons c cs =>
      have hc : c ≠ '/' := fun h => he.2.1 (by rw [h]; exact List.mem_cons_self _ _)
      cases es with
      | nil => exact ⟨c, cs, rfl, hc⟩
      | cons e2 es2 => exact ⟨c, cs ++ '/' :: joinSep (e2 :: es2), rfl, hc⟩

theorem clean_joinSep_slash (elems : List (List Char)) (hne : elems ≠ [])
    (hreal : ∀ e ∈ elems, realElem e) :
    Clean (String.mk (joinSep elems ++ ['/'])) = String.mk (joinSep elems) := by
  obtain ⟨c, cs, hjoin, hc⟩ := joinSep_head elems hne hreal
  have hpath : String.mk (joinSep elems ++ ['/']) ≠ "" := mk_ne_empty _ (by simp)
  have hsplit : splitSep (joinSep elems ++ ['/']) = elems ++ [[]] :=
    splitSep_joinSep elems [] hne hreal
  have hrooted : ((joinSep elems ++ ['/']).head? == some '/') = false := by
    rw [hjoin]
    simpa using hc
  have hbody : joinSep elems ≠ [] := by rw [hjoin]; simp
  unfold Clean
  simp only [hpath, if_false, hsplit, hrooted, List.foldl_append, cleanFold_real false elems hreal,
    List.foldl_cons, List.foldl_nil, cleanStep, if_true, List.replicate_zero, List.nil_append,
    List.append_nil, List.reverse_reverse, hbody, Bool.false_eq_true]

theorem uptoLastSep_segment (dir seg : List Char) (hsep : '/' ∉ seg) :
    uptoLastSep (dir ++ '/' :: seg) = dir ++ ['/'] := by
  unfold uptoLastSep
  have hall : ∀ c ∈ seg.reverse, (c != '/') = true := by
    intro c hc
    simp only [bne_iff_ne, ne_eq]
    intro h; subst h
    exact hsep (List.mem_reverse.1 hc)
  rw [List.reverse_append, List.reverse_cons, List.append_assoc,
    List.dropWhile_append_of_pos hall]
  simp [List.dropWhile_cons]

theorem uptoLastSep_bare (seg : List Char) (hsep : '/' ∉ seg) : uptoLastSep seg = [] := by
  unfold uptoLastSep
  have hall : ∀ c ∈ seg.reverse, (c != '/') = true := by
    intro c hc
    simp only [bne_iff_ne, ne_eq]
    intro h; subst h
    exact hsep (List.mem_reverse.1 hc)
  rw [List.dropWhile_eq_nil_iff.2 hall, List.reverse_nil]

theorem dir_ordinary (elems : List (List Char)) (seg : List Char) (hne : elems ≠ [])
    (hreal : ∀ e ∈ elems, realElem e) (hsep : '/' ∉ seg) :
    Dir (String.mk (joinSep elems ++ '/' :: seg)) = String.mk (joinSep elems) := by
  unfold Dir
  rw [uptoLastSep_segment (joinSep elems) seg hsep]
  exact clean_joinSep_slash elems hne hreal

theorem dir_bare (seg : List Char) (hsep : '/' ∉ seg) : Dir (String.mk seg) = "." := by
  unfold Dir
  rw [uptoLastSep_bare seg hsep]
  rfl

theorem directoryComponent_ordinary (elems : List (List Char)) (seg : List Char)
    (hne : elems ≠ []) (hreal : ∀ e ∈ elems, realElem e) (hsep : '/' ∉ seg) :
    directoryComponent (String.mk (joinSep elems ++ '/' :: seg)) = String.mk (joinSep elems) := by
  unfold directoryComponent
  rw [splitSep_joinSep elems seg hne hreal, splitSep_bare seg hsep]
  simp


/-! ## The built tree -/

theorem builtNodes_names (resources : List (String × String)) :
    (builtNodes resources).map Node.Name = sortStrings (resources.map Prod.fst) := by
  simp only [builtNodes, buildNodes_names]

theorem builtNodes_parent (resources : List (String × String)) :
    ∀ n ∈ builtNodes resources, n.Parent = Dir n.Name := by
  intro n hn
  simp only [builtNodes, buildNodes_eq_map, List.mem_map] at hn
  obtain ⟨name, _, rfl⟩ := hn
  rfl

theorem builtNodes_entries (resources : List (String × String))
    (hkeys : (resources.map Prod.fst).Nodup) :
    List.Perm ((builtNodes resources).map (fun n => (n.Name, n.NodeType))) resources := by
  have hmap : (builtNodes resources).map (fun n => (n.Name, n.NodeType))
      = (sortStrings (resources.map Prod.fst)).map (fun k => (k, mapGet resources k)) := by
    simp only [builtNodes, buildNodes_eq_map, List.map_map]
    rfl
  have hres : (resources.map Prod.fst).map (fun k => (k, mapGet resources k)) = resources := by
    rw [List.map_map]
    conv_rhs => rw [← List.map_id resources]
    apply List.map_congr_left
    intro e he
    obtain ⟨k, v⟩ := e
    simp only [Function.comp, id]
    rw [mapGet_of_mem resources k v hkeys he]
  rw [hmap]
  conv_rhs => rw [← hres]
  exact (sortStrings_perm _).map _

/-- C6 (counterexample): in the tree built from `a` (a directory) and `a/b` (a file) the
node `a` has the parent `"."`, whereas its name with the last path segment removed is the
empty string. -/
theorem C6_counterexample_bare_name_parent_is_dot :
    GetTreeStructFromResourcesMap sampleResources
        = Except.ok { Nodes := [CreateNode "a" "directory" ".", CreateNode "a/b" "file" "a"],
                      rootNode := "a" }
      ∧ directoryComponent "a" = ""
      ∧ (CreateNode "a" "directory" ".").Parent ≠ directoryComponent "a" := by
  decide

/-- C6 (amended): in every tree built from a resource map each node's parent is
`filepath.Dir` of its name, and no two nodes have the same name.  For a name made of
ordinary elements followed by a last element, `Dir` is the name with its last path segment
removed (`a/b` has the parent `a`); for a name without separator it is `"."`, not the empty
string. -/
theorem C6_parent_is_Dir_and_names_unique (resources : List (String × String)) (tree : Tree)
    (hkeys : (resources.map Prod.fst).Nodup)
    (htree : GetTreeStructFromResourcesMap resources = Except.ok tree) :
    (∀ n ∈ tree.Nodes, n.Parent = Dir n.Name)
      ∧ (tree.Nodes.map Node.Name).Nodup
      ∧ (∀ (elems : List (List Char)) (seg : List Char),
          elems ≠ [] → (∀ e ∈ elems, realElem e) → '/' ∉ seg →
            Dir (String.mk (joinSep elems ++ '/' :: seg)) = String.mk (joinSep elems)
              ∧ directoryComponent (String.mk (joinSep elems ++ '/' :: seg))
                  = String.mk (joinSep elems))
      ∧ (∀ seg : List Char, '/' ∉ seg → Dir (String.mk seg) = ".") := by
  obtain ⟨hnodes, _, _⟩ := getTree_ok resources tree htree
  rw [hnodes]
  refine ⟨builtNodes_parent resources, ?_, ?_, dir_bare⟩
  · rw [builtNodes_names]
    exact (sortStrings_perm _).nodup_iff.2 hkeys
  · intro elems seg hne hreal hsep
    exact ⟨dir_ordinary elems seg hne hreal hsep,
      directoryComponent_ordinary elems seg hne hreal hsep⟩

/-- C6 (witness): the amended statement at the two-entry resource map: the node `a/b` has
the parent `a`, the node `a` has the parent `"."`, and the two names differ. -/
theorem C6_parent_is_Dir_and_names_unique_witness :
    (∀ n ∈ [CreateNode "a" "directory" ".", CreateNode "a/b" "file" "a"], n.Parent = Dir n.Name)
      ∧ ([CreateNode "a" "directory" ".", CreateNode "a/b" "file" "a"].map Node.Name).Nodup
      ∧ Dir "a/b" = "a" ∧ Dir "a" = "." :=
  have h := C6_parent_is_Dir_and_names_unique sampleResources
    { Nodes := [CreateNode "a" "directory" ".", CreateNode "a/b" "file" "a"], rootNode := "a" }
    (by decide) (by decide)
  ⟨h.1, h.2.1,
    (h.2.2.1 ["a".data] "b".data (by decide)
      (fun e he => by
        rw [List.mem_singleton] at he
        subst he
        exact ⟨by decide, by decide, by decide, by decide⟩)
      (by decide)).1,
    h.2.2.2 "a".data (by decide)⟩

/-- C7: the node list built from a resource map (one entry per key) is in strictly
increasing lexicographic order of the names, and its (name, type) pairs are exactly the
entries of the map, each once; it is the node list of the tree returned. -/
theorem C7_nodes_sorted_one_per_key (resources : List (String × String))
    (hkeys : (resources.map Prod.fst).Nodup) :
    List.Sorted (fun a b : String => a < b) ((builtNodes resources).map Node.Name)
      ∧ List.Perm ((builtNodes resources).map Node.Name) (resources.map Prod.fst)
      ∧ List.Perm ((builtNodes resources).map (fun n => (n.Name, n.NodeType))) resources
      ∧ (∀ tree, GetTreeStructFromResourcesMap resources = Except.ok tree →
          tree.Nodes = builtNodes resources) := by
  refine ⟨?_, ?_, builtNodes_entries resources hkeys, ?_⟩
  · rw [builtNodes_names]
    exact sortStrings_sorted_lt _ hkeys
  · rw [builtNodes_names]
    exact sortStrings_perm _
  · intro tree htree
    exact (getTree_ok resources tree htree).1

/-- C7 (witness): the statement at the four-entry resource map of the rendering example. -/
theorem C7_nodes_sorted_one_per_key_witness :
    List.Sorted (fun a b : String => a < b) ((builtNodes renderResources).map Node.Name)
      ∧ List.Perm ((builtNodes renderResources).map Node.Name) (renderResources.map Prod.fst)
      ∧ List.Perm ((builtNodes renderResources).map (fun n => (n.Name, n.NodeType)))
          renderResources
      ∧ (∀ tree, GetTreeStructFromResourcesMap renderResources = Except.ok tree →
          tree.Nodes = builtNodes renderResources) :=
  C7_nodes_sorted_one_per_key renderResources (by decide)


/-! ## The line of one node -/

theorem trimTrailingSep_segment (pre seg : List Char) (hne : seg ≠ []) (hsep : '/' ∉ seg) :
    trimTrailingSep (pre ++ seg) = pre ++ seg := by
  unfold trimTrailingSep
  rw [List.reverse_append]
  cases hrev : seg.reverse with
  | nil => exact absurd (List.reverse_eq_nil_iff.1 hrev) hne
  | cons x xs =>
    have hx : x ∈ seg := by
      rw [← List.mem_reverse, hrev]; exact List.mem_cons_self _ _
    have hxne : (x == '/') = false := by
      simp only [beq_eq_false_iff_ne, ne_eq]
      intro h; subst h; exact hsep hx
    rw [List.cons_append, List.dropWhile_cons, hxne]
    simp only [Bool.false_eq_true, if_false]
    rw [← List.cons_append, ← hrev, ← List.reverse_append, List.reverse_reverse]

theorem afterLastSep_segment (dir seg : List Char) (hsep : '/' ∉ seg) :
    afterLastSep (dir ++ '/' :: seg) = seg := by
  unfold afterLastSep
  have hall : ∀ c ∈ seg.reverse, (c != '/') = true := by
    intro c hc
    simp only [bne_iff_ne, ne_eq]
    intro h; subst h
    exact hsep (List.mem_reverse.1 hc)
  rw [List.reverse_append, List.reverse_cons, List.append_assoc,
    List.takeWhile_append_of_pos hall]
  simp [List.takeWhile_cons]

theorem afterLastSep_bare (seg : List Char) (hsep : '/' ∉ seg) : afterLastSep seg = seg := by
  unfold afterLastSep
  have hall : ∀ c ∈ seg.reverse, (c != '/') = true := by
    intro c hc
    simp only [bne_iff_ne, ne_eq]
    intro h; subst h
    exact hsep (List.mem_reverse.1 hc)
  rw [List.takeWhile_eq_self_iff.2 hall, List.reverse_reverse]

theorem base_last_segment (dir seg : List Char) (hne : seg ≠ []) (hsep : '/' ∉ seg) :
    Base (String.mk (dir ++ '/' :: seg)) = String.mk seg := by
  have hpath : String.mk (dir ++ '/' :: seg) ≠ "" := mk_ne_empty _ (by simp)
  have htrim : trimTrailingSep (dir ++ '/' :: seg) = dir ++ '/' :: seg := by
    have := trimTrailingSep_segment (dir ++ ['/']) seg hne hsep
    simpa using this
  unfold Base
  simp only [hpath, if_false, htrim, afterLastSep_segment dir seg hsep, hne]

theorem base_bare (seg : List Char) (hne : seg ≠ []) (hsep : '/' ∉ seg) :
    Base (String.mk seg) = String.mk seg := by
  have hpath : String.mk seg ≠ "" := mk_ne_empty _ hne
  have htrim : trimTrailingSep seg = seg := by
    have := trimTrailingSep_segment [] seg hne hsep
    simpa using this
  unfold Base
  simp only [hpath, if_false, htrim, afterLastSep_bare seg hsep, hne]

/-! ## Rendering the example -/

theorem getNodeByName_ok (name : String) (nodes : List Node) (n : Node)
    (h : GetNodeByName name nodes = Except.ok n) : n ∈ nodes ∧ n.Name = name := by
  induction nodes with
  | nil => simp [GetNodeByName] at h
  | cons a rest ih =>
    unfold GetNodeByName at h
    by_cases ha : a.Name = name
    · simp only [ha, if_true, Except.ok.injEq] at h
      subst h
      exact ⟨List.mem_cons_self _ _, ha⟩
    · simp only [ha, if_false] at h
      exact ⟨List.mem_cons_of_mem _ (ih h).1, (ih h).2⟩

theorem getNodeByName_of_mem (name : String) (nodes : List Node)
    (h : ∃ m ∈ nodes, m.Name = name) : ∃ n, GetNodeByName name nodes = Except.ok n := by
  induction nodes with
  | nil => obtain ⟨m, hm, _⟩ := h; cases hm
  | cons a rest ih =>
    unfold GetNodeByName
    by_cases ha : a.Name = name
    · exact ⟨a, by simp [ha]⟩
    · simp only [ha, if_false]
      obtain ⟨m, hm, hname⟩ := h
      rcases List.mem_cons.1 hm with heq | hmem
      · subst heq; exact absurd hname ha
      · exact ih ⟨m, hmem, hname⟩

theorem mem_children (pre child : String) (nodes : List Node)
    (h : child ∈ GetChildrenNodes pre nodes) : ∃ m ∈ nodes, m.Parent = pre ∧ m.Name = child := by
  rw [children_eq_filter, List.mem_map] at h
  obtain ⟨m, hm, hname⟩ := h
  rw [List.mem_filter] at hm
  exact ⟨m, hm.1, by simpa using hm.2, hname⟩

theorem printLoop_cons (recur : Node → Bool → Bool → Run) (nodes : List Node) (len : Nat)
    (inlast : Bool) (i : Nat) (child : String) (rest : List String) (node : Node)
    (h : GetNodeByName child nodes = Except.ok node) :
    (printLoop recur nodes len inlast i (child :: rest)).status
      = if (recur node (decide (len - 1 = i)) inlast).status = Status.done then
          (printLoop recur nodes len inlast (i + 1) rest).status
        else (recur node (decide (len - 1 = i)) inlast).status := by
  simp only [printLoop, h]
  cases hs : (recur node (decide (len - 1 = i)) inlast).status <;> simp

theorem printLoop_status_of_children (good : Status → Prop) (hdone : good Status.done)
    (recur : Node → Bool → Bool → Run) (nodes : List Node) (len : Nat) (inlast : Bool) :
    ∀ (names : List String) (i : Nat),
      (∀ c ∈ names, ∃ n, GetNodeByName c nodes = Except.ok n
        ∧ ∀ last il, good (recur n last il).status) →
      good (printLoop recur nodes len inlast i names).status := by
  intro names
  induction names with
  | nil => intro i _; simpa [printLoop] using hdone
  | cons c rest ih =>
    intro i hall
    obtain ⟨node, hc, hgood⟩ := hall c (List.mem_cons_self _ _)
    rw [printLoop_cons recur nodes len inlast i c rest node hc]
    by_cases hd : (recur node (decide (len - 1 = i)) inlast).status = Status.done
    · rw [if_pos hd]
      exact ih (i + 1) (fun c2 h2 => hall c2 (List.mem_cons_of_mem _ h2))
    · rw [if_neg hd]
      exact hgood _ _


/-! ## Nodes of an undefined type -/

theorem printNode_directory (fuel : Nat) (nodes : List Node) (node : Node) (last inlast : Bool)
    (h : node.NodeType = "directory") :
    PrintNode (fuel + 1) nodes node last inlast
      = printLoop (PrintNode fuel nodes) nodes (GetChildrenNodes node.Name nodes).length last 0
          (GetChildrenNodes node.Name nodes) := by
  have hfile : node.NodeType ≠ "file" := by rw [h]; decide
  simp only [PrintNode, hfile, if_false]
  rw [if_pos h]

theorem printNode_undefined (fuel : Nat) (nodes : List Node) (node : Node) (last inlast : Bool)
    (hfile : node.NodeType ≠ "file") (hdir : node.NodeType ≠ "directory") :
    PrintNode (fuel + 1) nodes node last inlast
      = { out := [], status := Status.fatal "Node/Resource with undefined type" } := by
  simp only [PrintNode, hfile, hdir, if_false]

theorem printTreeStruct_status (fuel : Nat) (tree : Tree) (root : Node)
    (hroot : GetNodeByName tree.rootNode tree.Nodes = Except.ok root) :
    (PrintTreeStruct fuel tree).status
      = (PrintNode fuel tree.Nodes root false false).status := by
  have hlen : tree.Nodes.length ≠ 0 := by
    intro h
    rw [List.length_eq_zero] at h
    rw [h] at hroot
    simp [GetNodeByName] at hroot
  simp only [PrintTreeStruct, hlen, if_false, hroot]

theorem getNodeByName_eq_find (name : String) (nodes : List Node) :
    GetNodeByName name nodes
      = match nodes.find? (fun m => decide (m.Name = name)) with
        | some n => Except.ok n
        | none => Except.error ("getNodeByName: Node " ++ name ++ " doesn't exist") := by
  induction nodes with
  | nil => rfl
  | cons a rest ih =>
    unfold GetNodeByName
    by_cases ha : a.Name = name
    · simp [List.find?_cons, ha]
    · simp only [ha, if_false, List.find?_cons, decide_False]
      exact ih

theorem find_none_iff_no_name (name : String) (nodes : List Node) :
    nodes.find? (fun m => decide (m.Name = name)) = none ↔ ¬ ∃ n ∈ nodes, n.Name = name := by
  rw [List.find?_eq_none]
  constructor
  · rintro h ⟨n, hn, hname⟩
    exact h n hn (by simpa using hname)
  · intro h n hn hname
    exact h ⟨n, hn, by simpa using hname⟩

/-- C12: `Exist name nodes` is true if and only if some node of the list has exactly the
name `name`; equivalently if and only if `GetNodeByName name nodes` returns no error, and
the node it then returns is the first node of the list with that name. -/
theorem C12_Exist_iff_some_node_named (name : String) (nodes : List Node) :
    (Exist name nodes = true ↔ ∃ n ∈ nodes, n.Name = name)
      ∧ (Exist name nodes = true ↔ ∃ n, GetNodeByName name nodes = Except.ok n)
      ∧ (∀ n, GetNodeByName name nodes = Except.ok n ↔
          nodes.find? (fun m => decide (m.Name = name)) = some n) := by
  have hfind := getNodeByName_eq_find name nodes
  have hnone := find_none_iff_no_name name nodes
  unfold Exist
  cases hf : nodes.find? (fun m => decide (m.Name = name)) with
  | none =>
    rw [hf] at hfind hnone
    rw [hfind]
    refine ⟨?_, ?_, ?_⟩
    · simpa using hnone.1 rfl
    · simp
    · intro n; simp
  | some found =>
    rw [hf] at hfind hnone
    rw [hfind]
    refine ⟨?_, ?_, ?_⟩
    · have : ∃ n ∈ nodes, n.Name = name := by
        by_contra hno
        exact absurd (hnone.2 hno) (by simp)
      simpa using this
    · simp
    · intro n; simp

/-- C13: `IsDir name nodes` fails exactly when no node of the list has the name `name`,
and then with the not-found error of `GetNodeByName`; otherwise it returns whether the type
of the first node with that name is the directory type. -/
theorem C13_IsDir_fails_iff_absent (DIRECTORY name : String) (nodes : List Node) :
    ((∃ err, IsDir DIRECTORY name nodes = Except.error err) ↔ ¬ ∃ n ∈ nodes, n.Name = name)
      ∧ ((¬ ∃ n ∈ nodes, n.Name = name) → IsDir DIRECTORY name nodes
          = Except.error ("getNodeByName: Node " ++ name ++ " doesn't exist"))
      ∧ (∀ n, nodes.find? (fun m => decide (m.Name = name)) = some n →
          IsDir DIRECTORY name nodes = Except.ok (decide (n.NodeType = DIRECTORY))) := by
  have hfind := getNodeByName_eq_find name nodes
  have hnone := find_none_iff_no_name name nodes
  unfold IsDir
  cases hf : nodes.find? (fun m => decide (m.Name = name)) with
  | none =>
    rw [hf] at hfind hnone
    rw [hfind]
    refine ⟨?_, ?_, ?_⟩
    · simpa using hnone.1 rfl
    · intro _; rfl
    · intro n hn; cases hn
  | some found =>
    rw [hf] at hfind hnone
    rw [hfind]
    have hex : ∃ n ∈ nodes, n.Name = name := by
      by_contra hno
      exact absurd (hnone.2 hno) (by simp)
    refine ⟨?_, ?_, ?_⟩
    · simpa using hex
    · intro hno; exact absurd hex hno
    · intro n hn
      cases hn
      rfl

/-- C13 (witness): in the two-node example `a` is found and is a directory. -/
theorem C13_IsDir_fails_iff_absent_witness :
    IsDir "directory" "a" sampleNodes = Except.ok true :=
  (C13_IsDir_fails_iff_absent "directory" "a" sampleNodes).2.2
    (CreateNode "a" "directory" ".") (by decide)

/-! ## The first node of minimum depth -/

theorem rootFold_first_min (nodes : List Node) (st : Nat × String) :
    ((∀ n ∈ nodes, st.1 ≤ countSep n.Name) ∧ nodes.foldl rootStep st = st)
      ∨ ∃ before n after, nodes = before ++ n :: after
          ∧ countSep n.Name < st.1
          ∧ (∀ m ∈ before, countSep n.Name < countSep m.Name)
          ∧ (∀ m ∈ after, countSep n.Name ≤ countSep m.Name)
          ∧ nodes.foldl rootStep st = (countSep n.Name, n.Name) := by
  induction nodes generalizing st with
  | nil => left; exact ⟨fun n h => absurd h (List.not_mem_nil n), rfl⟩
  | cons a rest ih =>
    rw [List.foldl_cons]
    by_cases hlt : st.1 > countSep a.Name
    · have hstep : rootStep st a = (countSep a.Name, a.Name) := by simp [rootStep, hlt]
      rw [hstep]
      right
      rcases ih (countSep a.Name, a.Name) with ⟨hall, hsame⟩ | ⟨before, n, after, hsplit, hn, hb, ha, hres⟩
      · exact ⟨[], a, rest, rfl, hlt, fun m h => absurd h (List.not_mem_nil m), hall, hsame⟩
      · refine ⟨a :: before, n, after, by rw [hsplit]; rfl, ?_, ?_, ha, hres⟩
        · simp only at hn; omega
        · intro m hm
          rcases List.mem_cons.1 hm with heq | hmem
          · subst heq; exact hn
          · exact hb m hmem
    · have hstep : rootStep st a = st := by simp [rootStep, hlt]
      rw [hstep]
      rcases ih st with ⟨hall, hsame⟩ | ⟨before, n, after, hsplit, hn, hb, ha, hres⟩
      · left
        refine ⟨?_, hsame⟩
        intro m hm
        rcases List.mem_cons.1 hm with heq | hmem
        · subst heq; omega
        · exact hall m hmem
      · right
        refine ⟨a :: before, n, after, by rw [hsplit]; rfl, hn, ?_, ha, hres⟩
        intro m hm
        rcases List.mem_cons.1 hm with heq | hmem
        · subst heq; omega
        · exact hb m hmem

theorem getRootDir_first_min (nodes : List Node)
    (h : ∃ n ∈ nodes, countSep n.Name < 1000) :
    ∃ before n after, nodes = before ++ n :: after
      ∧ (∀ m ∈ before, countSep n.Name < countSep m.Name)
      ∧ (∀ m ∈ after, countSep n.Name ≤ countSep m.Name)
      ∧ (GetRootDir nodes).1 = n.Name := by
  rcases rootFold_first_min nodes (1000, "") with ⟨hall, _⟩ | ⟨before, n, after, hsplit, _, hb, ha, hres⟩
  · obtain ⟨k, hk, hlt⟩ := h
    have := hall k hk
    simp only at this
    omega
  · refine ⟨before, n, after, hsplit, hb, ha, ?_⟩
    rw [getRootDir_fst]
    show (nodes.foldl rootStep (1000, "")).2 = n.Name
    rw [hres]

theorem builtTree_root_smallest (resources : List (String × String)) (tree : Tree)
    (hkeys : (resources.map Prod.fst).Nodup)
    (htree : GetTreeStructFromResourcesMap resources = Except.ok tree) :
    (∃ n ∈ tree.Nodes, n.Name = tree.rootNode)
      ∧ (∀ m ∈ tree.Nodes, countSep tree.rootNode ≤ countSep m.Name)
      ∧ (∀ m ∈ tree.Nodes, countSep m.Name = countSep tree.rootNode →
          tree.rootNode ≤ m.Name) := by
  obtain ⟨hnodes, hroot, herr⟩ := getTree_ok resources tree htree
  have hne : (rootLoop tree.Nodes).2 ≠ "" := (getRootDir_snd_none tree.Nodes).1 herr
  have hsorted : List.Sorted (fun a b : String => a < b) (tree.Nodes.map Node.Name) := by
    rw [hnodes, builtNodes_names]
    exact sortStrings_sorted_lt _ hkeys
  rcases rootFold_first_min tree.Nodes (1000, "") with ⟨_, hsame⟩ | ⟨before, n, after, hsplit, _, hb, ha, hres⟩
  · exfalso
    apply hne
    show (tree.Nodes.foldl rootStep (1000, "")).2 = ""
    rw [hsame]
  · have hrootname : tree.rootNode = n.Name := by
      rw [hroot, getRootDir_fst]
      show (tree.Nodes.foldl rootStep (1000, "")).2 = n.Name
      rw [hres]
    have hmem : ∀ m, m ∈ tree.Nodes ↔ m ∈ before ∨ m = n ∨ m ∈ after := by
      intro m
      rw [hsplit, List.mem_append, List.mem_cons]
    rw [hsplit, List.map_append, List.map_cons] at hsorted
    have hafter : ∀ m ∈ after, n.Name < m.Name := by
      intro m hm
      have h2 := (List.pairwise_append.1 hsorted).2.1
      exact (List.pairwise_cons.1 h2).1 m.Name (List.mem_map_of_mem _ hm)
    rw [hrootname]
    refine ⟨⟨n, (hmem n).2 (Or.inr (Or.inl rfl)), rfl⟩, ?_, ?_⟩
    · intro m hm
      rcases (hmem m).1 hm with h | h | h
      · exact le_of_lt (hb m h)
      · rw [h]
      · exact ha m h
    · intro m hm hdepth
      rcases (hmem m).1 hm with h | h | h
      · have := hb m h
        omega
      · rw [h]
      · exact le_of_lt (hafter m h)

/-- C16: when some node has fewer than 1000 separators, the root returned by `GetRootDir`
is the name of the first node, in list order, among those of minimum separator count
(every node before it is strictly deeper, no node after it is less deep), and the error is
set only if that name is empty; hence the root of a tree built from a resource map is a
node name of minimum depth and the lexicographically smallest of the names of that depth. -/
theorem C16_root_is_first_of_minimum_depth (nodes : List Node)
    (h : ∃ n ∈ nodes, countSep n.Name < 1000) :
    (∃ before n after, nodes = before ++ n :: after
        ∧ (∀ m ∈ before, countSep n.Name < countSep m.Name)
        ∧ (∀ m ∈ after, countSep n.Name ≤ countSep m.Name)
        ∧ (GetRootDir nodes).1 = n.Name)
      ∧ ((GetRootDir nodes).2 = none ↔ (GetRootDir nodes).1 ≠ "")
      ∧ (∀ (resources : List (String × String)) (tree : Tree),
          (resources.map Prod.fst).Nodup →
          GetTreeStructFromResourcesMap resources = Except.ok tree →
            (∃ n ∈ tree.Nodes, n.Name = tree.rootNode)
              ∧ (∀ m ∈ tree.Nodes, countSep tree.rootNode ≤ countSep m.Name)
              ∧ (∀ m ∈ tree.Nodes, countSep m.Name = countSep tree.rootNode →
                  tree.rootNode ≤ m.Name)) :=
  ⟨getRootDir_first_min nodes h,
    by rw [getRootDir_fst]; exact getRootDir_snd_none nodes,
    builtTree_root_smallest⟩

/-- C16 (witness): among the nodes `b/x`, `a`, `c`, `a/y` the root is `a`, the first of the
two names without separator. -/
theorem C16_root_is_first_of_minimum_depth_witness :
    (GetRootDir tieNodes).1 = "a"
      ∧ ∃ before n after, tieNodes = before ++ n :: after
        ∧ (∀ m ∈ before, countSep n.Name < countSep m.Name)
        ∧ (∀ m ∈ after, countSep n.Name ≤ countSep m.Name)
        ∧ (GetRootDir tieNodes).1 = n.Name :=
  ⟨by decide,
    (C16_root_is_first_of_minimum_depth tieNodes
      ⟨CreateNode "a" "directory" ".", by decide, by decide⟩).1⟩

/-! ## The flag `inlast` -/

theorem specialPrint_deep (name : String) (last inlast : Bool) (h : 2 ≤ countSep name) :
    specialPrint name last inlast
      = Repeat "|   " (countSep name - 2) ++ (if inlast then "" else "|")
          ++ ("   " ++ (if last then "└── " else "├── ") ++ Base name) := by
  unfold specialPrint
  rcases hd : countSep name with _ | _ | _ | d
  · rw [hd] at h; omega
  · rw [hd] at h; omega
  · cases last <;> cases inlast <;> simp [Repeat, String.append_assoc] <;>
      (rw [← String.append_assoc]; rfl)
  · cases last <;> cases inlast <;> simp [String.append_assoc] <;> rfl

theorem specialPrint_shallow (name : String) (last inlast : Bool) (h : countSep name < 2) :
    specialPrint name last inlast
      = (if countSep name = 0 then "" else (if last then "└── " else "├── ")) ++ Base name := by
  unfold specialPrint
  rcases hd : countSep name with _ | _ | d
  · simp
  · cases last <;> simp
  · rw [hd] at h; omega

/-- C17: for a name with at least two separators the line printed with `inlast = true` is
the line printed with `inlast = false` with exactly one `|` removed, the rest being
identical; for a name with fewer than two separators the flag `inlast` changes nothing. -/
theorem C17_inlast_removes_one_bar (name : String) (last : Bool) :
    (2 ≤ countSep name →
        ∃ before after : String,
          specialPrint name last false = before ++ "|" ++ after
            ∧ specialPrint name last true = before ++ after
            ∧ (specialPrint name last false).data.count '|'
                = (specialPrint name last true).data.count '|' + 1)
      ∧ (countSep name < 2 → specialPrint name last true = specialPrint name last false) := by
  constructor
  · intro h
    have hf := specialPrint_deep name last false h
    have ht := specialPrint_deep name last true h
    simp only [Bool.false_eq_true, if_false, if_true] at hf ht
    have ht2 : specialPrint name last true
        = Repeat "|   " (countSep name - 2)
            ++ ("   " ++ (if last then "└── " else "├── ") ++ Base name) := by
      rw [ht]
      congr 1
      exact String.append_empty _
    refine ⟨Repeat "|   " (countSep name - 2),
      "   " ++ (if last then "└── " else "├── ") ++ Base name, hf, ht2, ?_⟩
    rw [hf, ht2]
    simp only [String.data_append, List.count_append]
    have hbar : List.count '|' ['|'] = 1 := by decide
    rw [hbar]
    omega
  · intro h
    rw [specialPrint_shallow name last true h, specialPrint_shallow name last false h]

/-- C17 (witness): the line of `a/c/d` as a last child. -/
theorem C17_inlast_removes_one_bar_witness :
    ∃ before after : String,
      specialPrint "a/c/d" true false = before ++ "|" ++ after
        ∧ specialPrint "a/c/d" true true = before ++ after
        ∧ (specialPrint "a/c/d" true false).data.count '|'
            = (specialPrint "a/c/d" true true).data.count '|' + 1 :=
  (C17_inlast_removes_one_bar "a/c/d" true).1 (by decide)

/-! ## The line of the root -/

theorem specialPrint_depth_zero (name : String) (last inlast : Bool) (h : countSep name = 0) :
    specialPrint name last inlast = Base name := by
  rw [specialPrint_shallow name last inlast (by omega)]
  simp [h]

theorem printTreeStruct_first_line (fuel : Nat) (tree : Tree) (root : Node)
    (hroot : GetNodeByName tree.rootNode tree.Nodes = Except.ok root) :
    (PrintTreeStruct fuel tree).out.head? = some (specialPrint tree.rootNode true false) := by
  have hlen : tree.Nodes.length ≠ 0 := by
    intro h
    rw [List.length_eq_zero] at h
    rw [h] at hroot
    simp [GetNodeByName] at hroot
  simp only [PrintTreeStruct, hlen, if_false, hroot, List.head?_cons]

/-- C18: in the tree built from the directory `x/a` and the file `x/a/b` the root is `x/a`,
a name with one separator, and the first line of the rendering is the connector followed by
`a`, not `a` alone; with `last = false` the line of the root would be another one.  When the
name of the root has no separator its line is its last element alone, whatever the flags. -/
theorem C18_root_line_has_connector_at_depth_one :
    GetTreeStructFromResourcesMap nestedResources
        = Except.ok { Nodes := [CreateNode "x/a" "directory" "x",
                                CreateNode "x/a/b" "file" "x/a"],
                      rootNode := "x/a" }
      ∧ (∀ fuel, PrintTree (fuel + 2) nestedResources
          = { out := ["└── a", "|   └── b"], status := Status.done })
      ∧ Base "x/a" = "a"
      ∧ specialPrint "x/a" true false = "└── a"
      ∧ specialPrint "x/a" false false = "├── a"
      ∧ (∀ (name : String) (last inlast : Bool), countSep name = 0 →
          specialPrint name last inlast = Base name) := by
  refine ⟨by decide, fun fuel => rfl, by decide, by decide, by decide,
    specialPrint_depth_zero⟩

/-! ## A directory that is its own parent -/

theorem printNode_first_child_self (nodes : List Node) (node : Node) (rest : List String)
    (hdir : node.NodeType = "directory")
    (hchildren : GetChildrenNodes node.Name nodes = node.Name :: rest)
    (hget : GetNodeByName node.Name nodes = Except.ok node) :
    ∀ (fuel : Nat) (last inlast : Bool),
      (PrintNode fuel nodes node last inlast).status = Status.outOfFuel := by
  intro fuel
  induction fuel with
  | zero => intro last inlast; rfl
  | succ k ih =>
    intro last inlast
    rw [printNode_directory k nodes node last inlast hdir, hchildren,
      printLoop_cons _ nodes _ last 0 node.Name rest node hget, ih]
    simp

theorem printTree_first_child_self (resources : List (String × String)) (tree : Tree)
    (root : Node) (rest : List String)
    (htree : GetTreeStructFromResourcesMap resources = Except.ok tree)
    (hroot : GetNodeByName tree.rootNode tree.Nodes = Except.ok root)
    (hdir : root.NodeType = "directory")
    (hchildren : GetChildrenNodes root.Name tree.Nodes = root.Name :: rest)
    (hget : GetNodeByName root.Name tree.Nodes = Except.ok root) :
    ∀ fuel, (PrintTree fuel resources).status = Status.outOfFuel := by
  intro fuel
  unfold PrintTree
  rw [htree]
  show (PrintTreeStruct fuel tree).status = Status.outOfFuel
  rw [printTreeStruct_status fuel tree root hroot]
  exact printNode_first_child_self tree.Nodes root rest hdir hchildren hget fuel false false

theorem printLoop_cons_stop (recur : Node → Bool → Bool → Run) (nodes : List Node) (len : Nat)
    (inlast : Bool) (i : Nat) (child : String) (rest : List String) (node : Node)
    (h : GetNodeByName child nodes = Except.ok node)
    (hs : (recur node (decide (len - 1 = i)) inlast).status ≠ Status.done) :
    printLoop recur nodes len inlast i (child :: rest)
      = { out := specialPrint child (decide (len - 1 = i)) inlast
                  :: (recur node (decide (len - 1 = i)) inlast).out,
          status := (recur node (decide (len - 1 = i)) inlast).status } := by
  cases hst : (recur node (decide (len - 1 = i)) inlast).status with
  | done => exact absurd hst hs
  | fatal msg => simp only [printLoop, h, hst]
  | outOfFuel => simp only [printLoop, h, hst]

theorem printNode_dot_out (fuel : Nat) (last inlast : Bool) :
    (PrintNode fuel [CreateNode "." "directory" "."] (CreateNode "." "directory" ".")
        last inlast).out = List.replicate fuel "." := by
  induction fuel generalizing last inlast with
  | zero => rfl
  | succ k ih =>
    have hstatus := printNode_first_child_self [CreateNode "." "directory" "."]
      (CreateNode "." "directory" ".") [] (by decide) (by decide) (by decide) k
    rw [printNode_directory k _ _ last inlast (by decide)]
    have hchildren : GetChildrenNodes (CreateNode "." "directory" ".").Name
        [CreateNode "." "directory" "."] = ["."] := by decide
    rw [hchildren, printLoop_cons_stop _ _ _ last 0 "." []
      (CreateNode "." "directory" ".") (by decide) (by rw [hstatus]; simp)]
    simp only [ih, List.replicate_succ]
    congr 1

theorem printTree_dot_out (fuel : Nat) :
    (PrintTree fuel dotResources).out = List.replicate (fuel + 1) "." := by
  have htree : GetTreeStructFromResourcesMap dotResources
      = Except.ok { Nodes := [CreateNode "." "directory" "."], rootNode := "." } := by decide
  unfold PrintTree
  rw [htree]
  have hroot : GetNodeByName "." [CreateNode "." "directory" "."]
      = Except.ok (CreateNode "." "directory" ".") := by decide
  simp only [PrintTreeStruct, List.length_singleton, one_ne_zero, if_false, hroot,
    printNode_dot_out, List.replicate_succ]
  congr 1

/-- C11: the tree built from the one-entry map with the directory `.` has the node `.` with
the parent `.` (`filepath.Dir(".")` is `"."`), so the node is its own child and
`PrintNode` calls itself on it without end: whatever the recursion budget, the rendering
has not returned nor failed when the budget is used up.  The same holds for the directory
`/` and for a listing rooted at `.` with a file in it. -/
theorem C11_self_parent_directory_recurses_forever :
    GetTreeStructFromResourcesMap dotResources
        = Except.ok { Nodes := [CreateNode "." "directory" "."], rootNode := "." }
      ∧ GetChildrenNodes "." [CreateNode "." "directory" "."] = ["."]
      ∧ (∀ fuel, (PrintTree fuel dotResources).status = Status.outOfFuel)
      ∧ (∀ fuel, (PrintTree fuel dotResources).out = List.replicate (fuel + 1) ".")
      ∧ GetTreeStructFromResourcesMap slashResources
          = Except.ok { Nodes := [CreateNode "/" "directory" "/"], rootNode := "/" }
      ∧ (∀ fuel, (PrintTree fuel slashResources).status = Status.outOfFuel)
      ∧ GetTreeStructFromResourcesMap dotListing
          = Except.ok { Nodes := [CreateNode "." "directory" ".", CreateNode "a" "file" "."],
                        rootNode := "." }
      ∧ (∀ fuel, (PrintTree fuel dotListing).status = Status.outOfFuel) := by
  refine ⟨by decide, by decide, ?_, ?_, by decide, ?_, by decide, ?_⟩
  · exact printTree_first_child_self dotResources
      { Nodes := [CreateNode "." "directory" "."], rootNode := "." }
      (CreateNode "." "directory" ".") []
      (by decide) (by decide) (by decide) (by decide) (by decide)
  · exact printTree_dot_out
  · exact printTree_first_child_self slashResources
      { Nodes := [CreateNode "/" "directory" "/"], rootNode := "/" }
      (CreateNode "/" "directory" "/") []
      (by decide) (by decide) (by decide) (by decide) (by decide)
  · exact printTree_first_child_self dotListing
      { Nodes := [CreateNode "." "directory" ".", CreateNode "a" "file" "."], rootNode := "." }
      (CreateNode "." "directory" ".") ["a"]
      (by decide) (by decide) (by decide) (by decide) (by decide)

/-! ## The listener -/

/-- C14: when the `Content-Type` header is present (not empty) and its media type is not
`application/json`, `decodeJSONBody` returns a `malformedRequest` of status 415 whatever
the body; when the header is absent the check is skipped and the result is the one the
body alone gives. -/
theorem C14_content_type_check (lib : Lib) (r : Request) :
    (r.contentType ≠ "" → lib.ParseValueAndParams r.contentType ≠ "application/json" →
        decodeJSONBody lib r
          = Except.error
              (RequestError.malformed 415 "Content-Type header is not application/json"))
      ∧ (r.contentType = "" →
          decodeJSONBody lib r = decodeBody lib.Decode lib.quote r.body) := by
  constructor
  · intro hct hval
    simp only [decodeJSONBody, hct, hval, if_true, ne_eq, not_false_eq_true]
  · intro hct
    simp only [decodeJSONBody, hct, ne_eq, not_true_eq_false, if_false]

/-- C14 (witness): a request with the header `text/plain` is refused with the status 415. -/
theorem C14_content_type_check_witness :
    decodeJSONBody sampleLib { contentType := "text/plain", body := "\x7b\"name\":\"x\"\x7d" }
      = Except.error
          (RequestError.malformed 415 "Content-Type header is not application/json") :=
  (C14_content_type_check sampleLib
    { contentType := "text/plain", body := "\x7b\"name\":\"x\"\x7d" }).1 (by decide) (by decide)

/-! ## Parent links in a node list with distinct names -/

theorem node_eq_of_name (nodes : List Node) (hnames : (nodes.map Node.Name).Nodup)
    (n m : Node) (hn : n ∈ nodes) (hm : m ∈ nodes) (h : n.Name = m.Name) : n = m :=
  List.inj_on_of_nodup_map hnames hn hm h

theorem getNodeByName_self (nodes : List Node) (hnames : (nodes.map Node.Name).Nodup)
    (n : Node) (hn : n ∈ nodes) : GetNodeByName n.Name nodes = Except.ok n := by
  obtain ⟨m, hm⟩ := getNodeByName_of_mem n.Name nodes ⟨n, hn, rfl⟩
  obtain ⟨hmem, hname⟩ := getNodeByName_ok n.Name nodes m hm
  rw [hm, node_eq_of_name nodes hnames m n hmem hn hname]

theorem up_target_unique (nodes : List Node) (hnames : (nodes.map Node.Name).Nodup)
    (x y z : Node) (j : Nat) (h1 : Up nodes x y j) (h2 : Up nodes x z j) : y = z := by
  induction h1 generalizing z with
  | zero x => cases h2; rfl
  | succ x p y j hp hname _ ih =>
    cases h2 with
    | succ _ q _ _ hq hqname hrest =>
      have hpq : p = q := node_eq_of_name nodes hnames p q hp hq (by rw [hname, hqname])
      subst hpq
      exact ih z hrest

theorem up_from_root (nodes : List Node) (root y : Node) (j : Nat)
    (hrootParent : ∀ m ∈ nodes, m.Name ≠ root.Parent) (h : Up nodes root y j) :
    j = 0 ∧ y = root := by
  cases h with
  | zero => exact ⟨rfl, rfl⟩
  | succ _ p _ _ hp hname _ => exact absurd hname (hrootParent p hp)

theorem up_depth_unique (nodes : List Node) (hnames : (nodes.map Node.Name).Nodup)
    (root : Node) (hrootParent : ∀ m ∈ nodes, m.Name ≠ root.Parent)
    (x : Node) (j k : Nat) (h1 : Up nodes x root j) (h2 : Up nodes x root k) : j = k := by
  induction j generalizing x k with
  | zero =>
    cases h1
    exact ((up_from_root nodes root root k hrootParent h2).1).symm
  | succ i ih =>
    cases h1 with
    | succ _ p _ _ hp hname hrest =>
      cases h2 with
      | zero => exact absurd hname (hrootParent p hp)
      | succ _ q _ k2 hq hqname hrest2 =>
        have hpq : p = q := node_eq_of_name nodes hnames p q hp hq (by rw [hname, hqname])
        subst hpq
        rw [ih p k2 hrest hrest2]

theorem up_trans (nodes : List Node) (x y z : Node) (j k : Nat)
    (h1 : Up nodes x y j) (h2 : Up nodes y z k) : Up nodes x z (j + k) := by
  induction h1 with
  | zero x => simpa using h2
  | succ x p y j hp hname _ ih =>
    have := Up.succ x p z (j + k) hp hname (ih h2)
    rw [show j + 1 + k = j + k + 1 by omega]
    exact this

theorem depth_bound (nodes : List Node) (hnames : (nodes.map Node.Name).Nodup)
    (root : Node) (hrootParent : ∀ m ∈ nodes, m.Name ≠ root.Parent)
    (hup : ∀ n ∈ nodes, ∃ j, Up nodes n root j) :
    ∃ bound, ∀ n ∈ nodes, ∀ k, Up nodes n root k → k ≤ bound := by
  have hsub : ∀ l : List Node, (∀ n ∈ l, n ∈ nodes) →
      ∃ bound, ∀ n ∈ l, ∀ k, Up nodes n root k → k ≤ bound := by
    intro l
    induction l with
    | nil => intro _; exact ⟨0, fun n hn => absurd hn (List.not_mem_nil n)⟩
    | cons a rest ih =>
      intro hl
      obtain ⟨b, hb⟩ := ih (fun n hn => hl n (List.mem_cons_of_mem _ hn))
      obtain ⟨j, hj⟩ := hup a (hl a (List.mem_cons_self _ _))
      refine ⟨max j b, fun n hn k hk => ?_⟩
      rcases List.mem_cons.1 hn with heq | hmem
      · subst heq
        rw [up_depth_unique nodes hnames root hrootParent n k j hk hj]
        exact le_max_left _ _
      · exact le_trans (hb n hmem k hk) (le_max_right _ _)
  exact hsub nodes (fun n hn => hn)
/-! ## The pre-order visits every node once -/

theorem mem_childNodes (nodes : List Node) (node c : Node) :
    c ∈ childNodes nodes node ↔ c ∈ nodes ∧ c.Parent = node.Name := by
  simp [childNodes, List.mem_filter]

theorem preorderBelow_succ (fuel : Nat) (nodes : List Node) (node : Node) :
    preorderBelow (fuel + 1) nodes node
      = (childNodes nodes node).flatMap (fun c => c :: preorderBelow fuel nodes c) := rfl

theorem mem_preorderBelow_up (nodes : List Node) :
    ∀ (fuel : Nat) (a x : Node), a ∈ nodes → x ∈ preorderBelow fuel nodes a →
      x ∈ nodes ∧ ∃ j, Up nodes x a (j + 1) := by
  intro fuel
  induction fuel with
  | zero => intro a x _ hx; simp [preorderBelow] at hx
  | succ f ih =>
    intro a x ha hx
    rw [preorderBelow_succ, List.mem_flatMap] at hx
    obtain ⟨c, hc, hxc⟩ := hx
    obtain ⟨hcmem, hcparent⟩ := (mem_childNodes nodes a c).1 hc
    have hca : Up nodes c a 1 := Up.succ c a a 0 ha hcparent.symm (Up.zero a)
    rcases List.mem_cons.1 hxc with heq | hbelow
    · subst heq
      exact ⟨hcmem, 0, hca⟩
    · obtain ⟨hxmem, j, hj⟩ := ih c x hcmem hbelow
      exact ⟨hxmem, j + 1, up_trans nodes x c a (j + 1) 1 hj hca⟩

theorem child_mem_preorderBelow (nodes : List Node) (fuel : Nat) (a c : Node)
    (hc : c ∈ nodes) (hparent : c.Parent = a.Name) :
    c ∈ preorderBelow (fuel + 1) nodes a := by
  rw [preorderBelow_succ, List.mem_flatMap]
  exact ⟨c, (mem_childNodes nodes a c).2 ⟨hc, hparent⟩, List.mem_cons_self _ _⟩

theorem preorderBelow_extend (nodes : List Node) :
    ∀ (fuel : Nat) (a p c : Node), p ∈ preorderBelow fuel nodes a →
      c ∈ nodes → c.Parent = p.Name → c ∈ preorderBelow (fuel + 1) nodes a := by
  intro fuel
  induction fuel with
  | zero => intro a p c hp; simp [preorderBelow] at hp
  | succ f ih =>
    intro a p c hp hc hparent
    rw [preorderBelow_succ, List.mem_flatMap] at hp
    obtain ⟨b, hb, hpb⟩ := hp
    rw [preorderBelow_succ, List.mem_flatMap]
    refine ⟨b, hb, List.mem_cons_of_mem _ ?_⟩
    rcases List.mem_cons.1 hpb with heq | hbelow
    · subst heq
      exact child_mem_preorderBelow nodes f p c hc hparent
    · exact ih b p c hbelow hc hparent

theorem mem_preorder_of_up (nodes : List Node) (root : Node) :
    ∀ (k : Nat) (n : Node), n ∈ nodes → Up nodes n root k →
      ∀ fuel, k ≤ fuel → n ∈ root :: preorderBelow fuel nodes root := by
  intro k
  induction k with
  | zero =>
    intro n _ hup fuel _
    cases hup
    exact List.mem_cons_self _ _
  | succ i ih =>
    intro n hn hup fuel hfuel
    cases hup with
    | succ _ p _ _ hp hname hrest =>
      obtain ⟨f, rfl⟩ : ∃ f, fuel = f + 1 := ⟨fuel - 1, by omega⟩
      have hpmem := ih p hp hrest f (by omega)
      apply List.mem_cons_of_mem
      rcases List.mem_cons.1 hpmem with heq | hbelow
      · subst heq
        exact child_mem_preorderBelow nodes f p n hn hname.symm
      · exact preorderBelow_extend nodes f root p n hbelow hn hname.symm

theorem nodup_preorderBelow (nodes : List Node) (hnames : (nodes.map Node.Name).Nodup)
    (root : Node) (hrootParent : ∀ m ∈ nodes, m.Name ≠ root.Parent)
    (hup : ∀ n ∈ nodes, ∃ j, Up nodes n root j) :
    ∀ (fuel : Nat) (a : Node), a ∈ nodes → (preorderBelow fuel nodes a).Nodup := by
  intro fuel
  induction fuel with
  | zero => intro a _; simp [preorderBelow]
  | succ f ih =>
    intro a ha
    obtain ⟨da, hda⟩ := hup a ha
    have hchildDepth : ∀ c ∈ childNodes nodes a, c ∈ nodes ∧ Up nodes c root (da + 1) := by
      intro c hc
      obtain ⟨hcmem, hcparent⟩ := (mem_childNodes nodes a c).1 hc
      refine ⟨hcmem, ?_⟩
      have := Up.succ c a root da ha hcparent.symm hda
      exact this
    have hunder : ∀ c ∈ childNodes nodes a, ∀ x ∈ c :: preorderBelow f nodes c,
        ∃ j, Up nodes x c j ∧ Up nodes x root (j + (da + 1)) := by
      intro c hc x hx
      obtain ⟨hcmem, hcd⟩ := hchildDepth c hc
      rcases List.mem_cons.1 hx with heq | hbelow
      · subst heq
        exact ⟨0, Up.zero x, by simpa using hcd⟩
      · obtain ⟨_, j, hj⟩ := mem_preorderBelow_up nodes f c x hcmem hbelow
        exact ⟨j + 1, hj, up_trans nodes x c root (j + 1) (da + 1) hj hcd⟩
    rw [preorderBelow_succ, List.nodup_flatMap]
    constructor
    · intro c hc
      obtain ⟨hcmem, hcd⟩ := hchildDepth c hc
      rw [List.nodup_cons]
      refine ⟨?_, ih c hcmem⟩
      intro hself
      obtain ⟨_, j, hj⟩ := mem_preorderBelow_up nodes f c c hcmem hself
      have h1 := up_trans nodes c c root (j + 1) (da + 1) hj hcd
      have := up_depth_unique nodes hnames root hrootParent c _ _ h1 hcd
      omega
    · have hnodupChildren : (childNodes nodes a).Nodup :=
        (List.Nodup.of_map Node.Name hnames).filter _
      refine List.Pairwise.imp_of_mem ?_ hnodupChildren
      intro c1 c2 hc1 hc2 hne
      show List.Disjoint (c1 :: preorderBelow f nodes c1) (c2 :: preorderBelow f nodes c2)
      rw [List.disjoint_left]
      intro x hx1 hx2
      obtain ⟨j1, hu1, hr1⟩ := hunder c1 hc1 x hx1
      obtain ⟨j2, hu2, hr2⟩ := hunder c2 hc2 x hx2
      have hj : j1 + (da + 1) = j2 + (da + 1) :=
        up_depth_unique nodes hnames root hrootParent x _ _ hr1 hr2
      have hj' : j1 = j2 := by omega
      subst hj'
      exact hne (up_target_unique nodes hnames x c1 c2 j1 hu1 hu2)

theorem preorder_perm (nodes : List Node) (hnames : (nodes.map Node.Name).Nodup)
    (root : Node) (hroot : root ∈ nodes) (hrootParent : ∀ m ∈ nodes, m.Name ≠ root.Parent)
    (hup : ∀ n ∈ nodes, ∃ j, Up nodes n root j)
    (bound : Nat) (hbound : ∀ n ∈ nodes, ∀ k, Up nodes n root k → k ≤ bound)
    (fuel : Nat) (hfuel : bound ≤ fuel) :
    List.Perm (root :: preorderBelow fuel nodes root) nodes := by
  have hnodupNodes : nodes.Nodup := List.Nodup.of_map Node.Name hnames
  have hnodup : (root :: preorderBelow fuel nodes root).Nodup := by
    rw [List.nodup_cons]
    refine ⟨?_, nodup_preorderBelow nodes hnames root hrootParent hup fuel root hroot⟩
    intro hself
    obtain ⟨_, j, hj⟩ := mem_preorderBelow_up nodes fuel root root hroot hself
    have := (up_from_root nodes root root (j + 1) hrootParent hj).1
    omega
  rw [List.perm_ext_iff_of_nodup hnodup hnodupNodes]
  intro n
  constructor
  · intro hn
    rcases List.mem_cons.1 hn with heq | hbelow
    · subst heq; exact hroot
    · exact (mem_preorderBelow_up nodes fuel root n hroot hbelow).1
  · intro hn
    obtain ⟨k, hk⟩ := hup n hn
    exact mem_preorder_of_up nodes root k n hn hk fuel
      (le_trans (hbound n hn k hk) hfuel)
/-! ## The rendering follows the pre-order -/

theorem printLoop_cons_done (recur : Node → Bool → Bool → Run) (nodes : List Node) (len : Nat)
    (inlast : Bool) (i : Nat) (child : String) (rest : List String) (node : Node)
    (h : GetNodeByName child nodes = Except.ok node)
    (hs : (recur node (decide (len - 1 = i)) inlast).status = Status.done) :
    printLoop recur nodes len inlast i (child :: rest)
      = { out := specialPrint child (decide (len - 1 = i)) inlast
                  :: ((recur node (decide (len - 1 = i)) inlast).out
                      ++ (printLoop recur nodes len inlast (i + 1) rest).out),
          status := (printLoop recur nodes len inlast (i + 1) rest).status } := by
  simp only [printLoop, h, hs]

theorem children_names (nodes : List Node) (node : Node) :
    GetChildrenNodes node.Name nodes = (childNodes nodes node).map Node.Name := by
  rw [children_eq_filter]
  rfl

theorem printLoop_out_preorder (recur : Node → Bool → Bool → Run) (nodes : List Node)
    (hnames : (nodes.map Node.Name).Nodup) (below : Node → List Node) (len : Nat)
    (inlast : Bool)
    (hrec : ∀ c ∈ nodes, ∀ last il, (recur c last il).status = Status.done →
      List.Forall₂ (fun line n => ∃ l2 il2, line = specialPrint n.Name l2 il2)
        (recur c last il).out (below c)) :
    ∀ (children : List Node) (i : Nat), (∀ c ∈ children, c ∈ nodes) →
      (printLoop recur nodes len inlast i (children.map Node.Name)).status = Status.done →
      List.Forall₂ (fun line n => ∃ l2 il2, line = specialPrint n.Name l2 il2)
        (printLoop recur nodes len inlast i (children.map Node.Name)).out
        (children.flatMap (fun c => c :: below c)) := by
  intro children
  induction children with
  | nil => intro i _ _; simp [printLoop]
  | cons c rest ih =>
    intro i hmem hdone
    have hc : c ∈ nodes := hmem c (List.mem_cons_self _ _)
    have hget := getNodeByName_self nodes hnames c hc
    rw [List.map_cons] at hdone ⊢
    have hstatus := printLoop_cons recur nodes len inlast i c.Name (rest.map Node.Name) c hget
    by_cases hsub : (recur c (decide (len - 1 = i)) inlast).status = Status.done
    · rw [printLoop_cons_done recur nodes len inlast i c.Name _ c hget hsub] at hdone ⊢
      simp only at hdone
      simp only [List.flatMap_cons, List.cons_append]
      refine List.Forall₂.cons ⟨_, _, rfl⟩ ?_
      exact List.rel_append (hrec c hc _ _ hsub)
        (ih (i + 1) (fun x hx => hmem x (List.mem_cons_of_mem _ hx)) hdone)
    · rw [hstatus, if_neg hsub] at hdone
      exact absurd hdone hsub

theorem printNode_out_preorder (nodes : List Node) (hnames : (nodes.map Node.Name).Nodup)
    (hfile : ∀ n ∈ nodes, n.NodeType = "file" → childNodes nodes n = []) :
    ∀ (fuel : Nat) (node : Node), node ∈ nodes → ∀ last inlast,
      (PrintNode fuel nodes node last inlast).status = Status.done →
      List.Forall₂ (fun line n => ∃ l2 il2, line = specialPrint n.Name l2 il2)
        (PrintNode fuel nodes node last inlast).out (preorderBelow fuel nodes node) := by
  intro fuel
  induction fuel with
  | zero => intro node _ last inlast hdone; simp [PrintNode] at hdone
  | succ k ih =>
    intro node hnode last inlast hdone
    by_cases hf : node.NodeType = "file"
    · have hout : (PrintNode (k + 1) nodes node last inlast).out = [] := by
        simp [PrintNode, hf]
      rw [hout, preorderBelow_succ, hfile node hnode hf]
      exact List.Forall₂.nil
    · by_cases hd : node.NodeType = "directory"
      · rw [printNode_directory k nodes node last inlast hd, children_names] at hdone ⊢
        rw [preorderBelow_succ]
        exact printLoop_out_preorder (PrintNode k nodes) nodes hnames (preorderBelow k nodes)
          _ last (fun c hc l il hs => ih c hc l il hs) (childNodes nodes node) 0
          (fun c hc => ((mem_childNodes nodes node c).1 hc).1) hdone
      · rw [printNode_undefined k nodes node last inlast hf hd] at hdone
        simp at hdone

theorem printNode_done (nodes : List Node) (hnames : (nodes.map Node.Name).Nodup)
    (root : Node) (hrootParent : ∀ m ∈ nodes, m.Name ≠ root.Parent)
    (htype : ∀ n ∈ nodes, n.NodeType = "file" ∨ n.NodeType = "directory")
    (hup : ∀ n ∈ nodes, ∃ j, Up nodes n root j)
    (bound : Nat) (hbound : ∀ n ∈ nodes, ∀ k, Up nodes n root k → k ≤ bound) :
    ∀ (fuel : Nat) (node : Node), node ∈ nodes →
      (∀ k, Up nodes node root k → bound - k < fuel) → ∀ last inlast,
      (PrintNode fuel nodes node last inlast).status = Status.done := by
  intro fuel
  induction fuel with
  | zero =>
    intro node hnode hk last inlast
    obtain ⟨k, hup⟩ := hup node hnode
    have := hk k hup
    omega
  | succ f ih =>
    intro node hnode hk last inlast
    rcases htype node hnode with hf | hd
    · simp [PrintNode, hf]
    · rw [printNode_directory f nodes node last inlast hd]
      apply printLoop_status_of_children (fun s => s = Status.done) rfl
      intro c hc
      obtain ⟨m, hm, hparent, hname⟩ := mem_children node.Name c nodes hc
      have hget : GetNodeByName c nodes = Except.ok m := by
        rw [← hname]; exact getNodeByName_self nodes hnames m hm
      refine ⟨m, hget, fun l il => ih m hm ?_ l il⟩
      intro k hup
      cases hup with
      | zero => exact absurd hparent.symm (hrootParent node hnode)
      | succ _ p _ j hp hpname hrest =>
        have hpn : p = node :=
          node_eq_of_name nodes hnames p node hp hnode (by rw [hpname, hparent])
        subst hpn
        have h1 := hk j hrest
        have h2 := hbound m hm (j + 1) (Up.succ m p root j hp hpname hrest)
        omega

theorem file_has_no_child (nodes : List Node) (hnames : (nodes.map Node.Name).Nodup)
    (root : Node) (hrootParent : ∀ m ∈ nodes, m.Name ≠ root.Parent)
    (hparent : ∀ n ∈ nodes, n ≠ root →
      ∃ p ∈ nodes, p.Name = n.Parent ∧ p.NodeType = "directory") :
    ∀ n ∈ nodes, n.NodeType = "file" → childNodes nodes n = [] := by
  intro n hn hfile
  rw [List.eq_nil_iff_forall_not_mem]
  intro c hc
  obtain ⟨hcmem, hcparent⟩ := (mem_childNodes nodes n c).1 hc
  have hcroot : c ≠ root := by
    intro h
    subst h
    exact hrootParent n hn hcparent.symm
  obtain ⟨p, hp, hpname, hpdir⟩ := hparent c hcmem hcroot
  have hpn : p = n := node_eq_of_name nodes hnames p n hp hn (by rw [hpname, hcparent])
  subst hpn
  rw [hfile] at hpdir
  exact absurd hpdir (by decide)

/-- C19: for a node list with pairwise distinct names and a root node of the list whose
parent is the name of no node, in which every other node has for parent the name of a
directory of the list, every type is `file` or `directory`, and parent links lead from
every node to the root, the rendering (the line of the root, then `PrintNode` from the
root) ends normally for every large enough recursion budget and prints exactly one line per
node of the list: its lines are, in order, lines of the root followed by the nodes below it
in depth-first pre-order, the children of each node in list order, and these nodes are the
nodes of the list, each once. -/
theorem C19_render_is_preorder (nodes : List Node) (root : Node)
    (hnames : (nodes.map Node.Name).Nodup)
    (hroot : root ∈ nodes)
    (hrootParent : ∀ m ∈ nodes, m.Name ≠ root.Parent)
    (hparent : ∀ n ∈ nodes, n ≠ root →
      ∃ p ∈ nodes, p.Name = n.Parent ∧ p.NodeType = "directory")
    (htype : ∀ n ∈ nodes, n.NodeType = "file" ∨ n.NodeType = "directory")
    (hup : ∀ n ∈ nodes, ∃ j, Up nodes n root j) :
    ∃ enough, ∀ fuel, enough ≤ fuel →
      (PrintTreeStruct fuel { Nodes := nodes, rootNode := root.Name }).status = Status.done
        ∧ List.Forall₂ (fun line n => ∃ last inlast, line = specialPrint n.Name last inlast)
            (PrintTreeStruct fuel { Nodes := nodes, rootNode := root.Name }).out
            (root :: preorderBelow fuel nodes root)
        ∧ List.Perm (root :: preorderBelow fuel nodes root) nodes
        ∧ (PrintTreeStruct fuel { Nodes := nodes, rootNode := root.Name }).out.length
            = nodes.length := by
  obtain ⟨bound, hbound⟩ := depth_bound nodes hnames root hrootParent hup
  refine ⟨bound + 1, fun fuel hfuel => ?_⟩
  have hget : GetNodeByName root.Name nodes = Except.ok root :=
    getNodeByName_self nodes hnames root hroot
  have hlen : nodes.length ≠ 0 := by
    intro h
    rw [List.length_eq_zero] at h
    rw [h] at hroot
    exact absurd hroot (List.not_mem_nil root)
  have hrun : PrintTreeStruct fuel { Nodes := nodes, rootNode := root.Name }
      = { out := specialPrint root.Name true false
                  :: (PrintNode fuel nodes root false false).out,
          status := (PrintNode fuel nodes root false false).status } := by
    simp only [PrintTreeStruct, hlen, if_false, hget]
  have hdone : (PrintNode fuel nodes root false false).status = Status.done :=
    printNode_done nodes hnames root hrootParent htype hup bound hbound fuel root hroot
      (fun k _ => by omega) false false
  have hlines := printNode_out_preorder nodes hnames
    (file_has_no_child nodes hnames root hrootParent hparent) fuel root hroot false false hdone
  have hperm := preorder_perm nodes hnames root hroot hrootParent hup bound hbound fuel
    (by omega)
  have hall : List.Forall₂ (fun line n => ∃ last inlast, line = specialPrint n.Name last inlast)
      (specialPrint root.Name true false :: (PrintNode fuel nodes root false false).out)
      (root :: preorderBelow fuel nodes root) :=
    List.Forall₂.cons ⟨true, false, rfl⟩ hlines
  rw [hrun]
  refine ⟨hdone, hall, hperm, ?_⟩
  rw [hall.length_eq, hperm.length_eq]

/-- C19 (witness): the node list of the rendering example, with the root `a`, satisfies the
hypotheses; below `a` the pre-order is `a/b`, `a/c`, `a/c/d`. -/
theorem C19_render_is_preorder_witness :
    preorderBelow 3 renderNodes (CreateNode "a" "directory" ".")
        = [CreateNode "a/b" "file" "a", CreateNode "a/c" "directory" "a",
            CreateNode "a/c/d" "file" "a/c"]
      ∧ ∃ enough, ∀ fuel, enough ≤ fuel →
        (PrintTreeStruct fuel { Nodes := renderNodes, rootNode := "a" }).status = Status.done
          ∧ List.Forall₂ (fun line n => ∃ last inlast, line = specialPrint n.Name last inlast)
              (PrintTreeStruct fuel { Nodes := renderNodes, rootNode := "a" }).out
              (CreateNode "a" "directory" "."
                :: preorderBelow fuel renderNodes (CreateNode "a" "directory" "."))
          ∧ List.Perm (CreateNode "a" "directory" "."
                :: preorderBelow fuel renderNodes (CreateNode "a" "directory" ".")) renderNodes
          ∧ (PrintTreeStruct fuel { Nodes := renderNodes, rootNode := "a" }).out.length
              = renderNodes.length :=
  ⟨by decide,
    C19_render_is_preorder renderNodes (CreateNode "a" "directory" ".")
      (by decide) (by decide) (by decide) (by decide) (by decide)
      (by
        have ha : (CreateNode "a" "directory" ".") ∈ renderNodes := by decide
        have hc : (CreateNode "a/c" "directory" "a") ∈ renderNodes := by decide
        have hupc : Up renderNodes (CreateNode "a/c" "directory" "a")
            (CreateNode "a" "directory" ".") 1 :=
          Up.succ _ _ _ 0 ha rfl (Up.zero _)
        intro n hn
        simp only [renderNodes, List.mem_cons, List.mem_singleton, List.not_mem_nil,
          or_false] at hn
        rcases hn with h | h | h | h
        · exact ⟨0, by rw [h]; exact Up.zero _⟩
        · exact ⟨1, by rw [h]; exact Up.succ _ _ _ 0 ha rfl (Up.zero _)⟩
        · exact ⟨1, by rw [h]; exact hupc⟩
        · exact ⟨2, by rw [h]; exact Up.succ _ _ _ 1 hc rfl hupc⟩)⟩

/-! ## The line of one node, for every name -/

theorem repeat_data (s : String) (n : Nat) :
    (Repeat s n).data = (List.replicate n s.data).flatten := by
  induction n with
  | zero => rfl
  | succ k ih =>
    show (s ++ Repeat s k).data = _
    rw [String.data_append, ih, List.replicate_succ, List.flatten_cons]

theorem repeat_bars (n : Nat) :
    Repeat "|   " n = String.mk (List.replicate n ['|', ' ', ' ', ' ']).flatten := by
  apply String.ext
  rw [repeat_data]

theorem splitSep_ne_nil (l : List Char) : splitSep l ≠ [] := by
  cases l with
  | nil => simp [splitSep]
  | cons c cs =>
    by_cases hc : c = '/'
    · simp [splitSep, hc]
    · cases hs : splitSep cs <;> simp [splitSep, hc, hs]

theorem splitSep_append_sep (dir rest : List Char) :
    splitSep (dir ++ '/' :: rest) = splitSep dir ++ splitSep rest := by
  induction dir with
  | nil => simp [splitSep]
  | cons c cs ih =>
    by_cases hc : c = '/'
    · simp [splitSep, hc, ih]
    · cases hs : splitSep cs with
      | nil => exact absurd hs (splitSep_ne_nil cs)
      | cons e es =>
        rw [hs] at ih
        have hstep : splitSep (c :: (cs ++ '/' :: rest))
            = match splitSep (cs ++ '/' :: rest) with
              | [] => [[c]]
              | e :: es => (c :: e) :: es := by
          simp only [splitSep, hc, if_false]
        have hhead : splitSep (c :: cs) = (c :: e) :: es := by
          simp only [splitSep, hc, if_false, hs]
        rw [List.cons_append, hstep, ih, hhead]
        rfl

theorem last_sep_split (l : List Char) :
    '/' ∉ l ∨ ∃ dir seg, l = dir ++ '/' :: seg ∧ '/' ∉ seg := by
  induction l with
  | nil => left; simp
  | cons c cs ih =>
    rcases ih with hno | ⟨dir, seg, hsplit, hseg⟩
    · by_cases hc : c = '/'
      · right
        exact ⟨[], cs, by rw [hc]; rfl, hno⟩
      · left
        intro h
        rcases List.mem_cons.1 h with h1 | h1
        · exact hc h1.symm
        · exact hno h1
    · right
      exact ⟨c :: dir, seg, by rw [hsplit]; rfl, hseg⟩

theorem finalSegment_eq (name : String) :
    finalSegment name = String.mk (afterLastSep name.data) := by
  unfold finalSegment
  congr 1
  rcases last_sep_split name.data with hno | ⟨dir, seg, hsplit, hseg⟩
  · rw [splitSep_bare _ hno, afterLastSep_bare _ hno]
    rfl
  · rw [hsplit, splitSep_append_sep, splitSep_bare seg hseg, afterLastSep_segment dir seg hseg,
      List.getLastD_concat]

theorem base_total (name : String) :
    (name = "" ∧ Base name = ".")
      ∨ (name ≠ "" ∧ (∀ c ∈ name.data, c = '/') ∧ Base name = "/")
      ∨ ∃ dir seg trail : List Char, name.data = dir ++ seg ++ trail
          ∧ (dir = [] ∨ dir.getLast? = some '/')
          ∧ seg ≠ [] ∧ '/' ∉ seg ∧ (∀ c ∈ trail, c = '/')
          ∧ Base name = String.mk seg := by
  by_cases hname : name = ""
  · left
    exact ⟨hname, by rw [hname]; rfl⟩
  · right
    have hsplit := List.takeWhile_append_dropWhile (fun c => c == '/') name.data.reverse
    have htrail : ∀ c ∈ (name.data.reverse.takeWhile (fun c => c == '/')).reverse, c = '/' := by
      intro c hc
      have := List.mem_takeWhile_imp (List.mem_reverse.1 hc)
      simpa using this
    cases hp : name.data.reverse.dropWhile (fun c => c == '/') with
    | nil =>
      left
      refine ⟨hname, ?_, ?_⟩
      · intro c hc
        have hall := List.dropWhile_eq_nil_iff.1 hp c (List.mem_reverse.2 hc)
        simpa using hall
      · unfold Base
        simp only [hname, if_false, trimTrailingSep, hp, List.reverse_nil, afterLastSep,
          List.takeWhile_nil, if_true]
    | cons x xs =>
      right
      have hx : (x == '/') = false := by
        have h := List.head?_dropWhile_not (fun c => c == '/') name.data.reverse
        rw [hp] at h
        simpa using h
      have hxnot : (x != '/') = true := by simpa [bne] using hx
      have hseg : (x :: xs).takeWhile (fun c => c != '/')
          = x :: xs.takeWhile (fun c => c != '/') := by
        rw [List.takeWhile_cons, if_pos hxnot]
      have hsplit2 := List.takeWhile_append_dropWhile (fun c => c != '/') (x :: xs)
      refine ⟨((x :: xs).dropWhile (fun c => c != '/')).reverse,
        ((x :: xs).takeWhile (fun c => c != '/')).reverse,
        (name.data.reverse.takeWhile (fun c => c == '/')).reverse, ?_, ?_, ?_, ?_, htrail, ?_⟩
      · rw [← List.reverse_append, hsplit2, ← hp, ← List.reverse_append, hsplit,
          List.reverse_reverse]
      · cases hd : (x :: xs).dropWhile (fun c => c != '/') with
        | nil => left; rfl
        | cons y ys =>
          right
          have h := List.head?_dropWhile_not (fun c => c != '/') (x :: xs)
          rw [hd] at h
          have hy : y = '/' := by simpa using h
          rw [List.getLast?_reverse, hy]
          rfl
      · rw [hseg]
        simp
      · intro hmem
        have := List.mem_takeWhile_imp (List.mem_reverse.1 hmem)
        simp at this
      · unfold Base
        have helem : afterLastSep (trimTrailingSep name.data)
            = ((x :: xs).takeWhile (fun c => c != '/')).reverse := by
          simp only [afterLastSep, trimTrailingSep, hp, List.reverse_reverse]
        have hne : ((x :: xs).takeWhile (fun c => c != '/')).reverse ≠ [] := by
          rw [hseg]
          simp
        simp only [hname, if_false, helem, hne]

theorem base_eq_finalSegment (name : String) (hname : name ≠ "")
    (hlast : name.data.getLast? ≠ some '/') : Base name = finalSegment name := by
  rw [finalSegment_eq]
  have hne : name.data ≠ [] := fun h => hname (String.ext h)
  have hrev : name.data.reverse ≠ [] := fun h => hne (List.reverse_eq_nil_iff.1 h)
  cases hr : name.data.reverse with
  | nil => exact absurd hr hrev
  | cons x xs =>
    have hx : x ≠ '/' := by
      intro h
      apply hlast
      rw [← List.head?_reverse, hr, h]
      rfl
    have hxsep : (x == '/') = false := by simpa using hx
    have hxnot : (x != '/') = true := by simpa [bne] using hxsep
    have htrim : trimTrailingSep name.data = name.data := by
      unfold trimTrailingSep
      rw [hr, List.dropWhile_cons, hxsep]
      simp only [Bool.false_eq_true, if_false]
      rw [← hr, List.reverse_reverse]
    have helem : afterLastSep name.data ≠ [] := by
      unfold afterLastSep
      rw [hr, List.takeWhile_cons, if_pos hxnot]
      simp
    unfold Base
    simp only [hname, if_false, htrim, helem]

theorem specialPrint_by_depth (name : String) (last inlast : Bool) :
    specialPrint name last inlast
      = (match countSep name with
          | 0 => ""
          | 1 => (if last then "└── " else "├── ")
          | 2 => (if inlast then "   " else "|   ") ++ (if last then "└── " else "├── ")
          | d + 3 => Repeat "|   " (d + 1) ++ (if inlast then "   " else "|   ")
              ++ (if last then "└── " else "├── ")) ++ Base name := by
  unfold specialPrint
  rcases hd : countSep name with _ | _ | _ | d
  · simp
  · cases last <;> simp
  · cases last <;> cases inlast <;> simp
  · have hbar : ∀ r : String, r ++ "|" ++ "   " = r ++ "|   " := fun r => by
      rw [String.append_assoc]; rfl
    cases last <;> cases inlast <;> simp [hbar]

/-- C9 (counterexample): the empty name has no separator and its only segment is empty,
yet its line is `.`, a character the name does not contain; the two segments of the name
`/` are empty, yet its line is the connector followed by `/`; and for `a/b/` the line ends
in `b` whereas nothing follows the last separator. -/
theorem C9_counterexample_empty_name_prints_dot :
    countSep "" = 0 ∧ splitSep "".data = [[]] ∧ finalSegment "" = ""
      ∧ specialPrint "" true false = "."
      ∧ specialPrint "" true false ≠ finalSegment ""
      ∧ countSep "/" = 1 ∧ splitSep "/".data = [[], []] ∧ finalSegment "/" = ""
      ∧ specialPrint "/" true false = "└── /"
      ∧ specialPrint "/" true false ≠ "└── " ++ finalSegment "/"
      ∧ countSep "a/b/" = 2 ∧ finalSegment "a/b/" = ""
      ∧ specialPrint "a/b/" false false = "|   ├── b"
      ∧ specialPrint "a/b/" false false ≠ "|   " ++ "├── " ++ finalSegment "a/b/" := by
  decide

/-- C9 (amended): the line of `specialPrint` for a name with `d` separators is, for
`d = 0`, `filepath.Base` of the name alone; for `d = 1`, the connector and then it; for
`d = 2`, one segment `"|   "` (`"   "` when `inlast`), the connector and then it; for
`d > 2`, the segment `"|   "` written `d - 2` times before those.  `filepath.Base` of the
name is `.` for the empty name, `/` for a name made of separators only, and otherwise the
last non-empty piece between separators, the separators after it being ignored; it is the
final path segment, what follows the last separator, whenever the name is not empty and
does not end in a separator. -/
theorem C9_specialPrint_line (name : String) (last inlast : Bool) :
    specialPrint name last inlast
        = (match countSep name with
            | 0 => ""
            | 1 => (if last then "└── " else "├── ")
            | 2 => (if inlast then "   " else "|   ") ++ (if last then "└── " else "├── ")
            | d + 3 => String.mk (List.replicate (d + 1) ['|', ' ', ' ', ' ']).flatten
                ++ (if inlast then "   " else "|   ")
                ++ (if last then "└── " else "├── ")) ++ Base name
      ∧ ((name = "" ∧ Base name = ".")
          ∨ (name ≠ "" ∧ (∀ c ∈ name.data, c = '/') ∧ Base name = "/")
          ∨ ∃ dir seg trail : List Char, name.data = dir ++ seg ++ trail
              ∧ (dir = [] ∨ dir.getLast? = some '/')
              ∧ seg ≠ [] ∧ '/' ∉ seg ∧ (∀ c ∈ trail, c = '/')
              ∧ Base name = String.mk seg)
      ∧ (name ≠ "" → name.data.getLast? ≠ some '/' → Base name = finalSegment name) := by
  refine ⟨?_, base_total name, base_eq_finalSegment name⟩
  rw [specialPrint_by_depth]
  rcases countSep name with _ | _ | _ | d
  · rfl
  · rfl
  · rfl
  · simp only [repeat_bars]

/-- C9 (witness): the name `a/c/d` is not empty and does not end in a separator; its last
element is its final path segment `d`, and as a last child under a last directory its line
is three spaces, the connector and `d`. -/
theorem C9_specialPrint_line_witness :
    Base "a/c/d" = finalSegment "a/c/d" ∧ finalSegment "a/c/d" = "d"
      ∧ specialPrint "a/c/d" true true = "   └── d" :=
  ⟨(C9_specialPrint_line "a/c/d" true true).2.2 (by decide) (by decide), by decide,
    by decide⟩

/-! ## The answer of the listener to an unknown name -/

/-- What `fmt.Fprintf` writes for formats with verbs and no operand: every way a verb can
be read (flags, width, precision, index, star, number too large, format ending early). -/
theorem fprintf_samples :
    Fprintf "abc" = "abc"
      ∧ Fprintf "100%" = "100%!(NOVERB)"
      ∧ Fprintf "50%% off" = "50% off"
      ∧ Fprintf "a%db%sc" = "a%!d(MISSING)b%!s(MISSING)c"
      ∧ Fprintf "%#d%0d%+d%-d% d" = "%!d(MISSING)%!d(MISSING)%!d(MISSING)%!d(MISSING)%!d(MISSING)"
      ∧ Fprintf "%-08.3fq" = "%!f(MISSING)q"
      ∧ Fprintf "%5d|%.2f|%.d" = "%!d(MISSING)|%!f(MISSING)|%!d(MISSING)"
      ∧ Fprintf "%*d" = "%!(BADWIDTH)%!d(MISSING)"
      ∧ Fprintf "%.*d" = "%!(BADPREC)%!d(MISSING)"
      ∧ Fprintf "%[1]d" = "%!d(BADINDEX)"
      ∧ Fprintf "%[x]d" = "%!d(BADINDEX)"
      ∧ Fprintf "%[]d" = "%!d(BADINDEX)"
      ∧ Fprintf "%[d" = "%!d(BADINDEX)"
      ∧ Fprintf "%[12d" = "%!d(BADINDEX)"
      ∧ Fprintf "%[" = "%!(NOVERB)"
      ∧ Fprintf "%[3]" = "%!(NOVERB)"
      ∧ Fprintf "%[1][2]d" = "%![(BADINDEX)2]d"
      ∧ Fprintf "%[x][2]d" = "%!d(BADINDEX)"
      ∧ Fprintf "%[1]2d" = "%!d(BADINDEX)"
      ∧ Fprintf "%[1].2d" = "%!d(BADINDEX)"
      ∧ Fprintf "%3.[2]d" = "%!d(BADINDEX)"
      ∧ Fprintf "%.[]" = "%!](BADINDEX)"
      ∧ Fprintf "%.-3d" = "%!-(MISSING)3d"
      ∧ Fprintf "%]d" = "%!](MISSING)d"
      ∧ Fprintf "%10000000d" = "%!d(MISSING)"
      ∧ Fprintf "%2147483648d" = "%!(NOVERB)"
      ∧ Fprintf "%.2147483648d" = "%!(NOVERB)"
      ∧ Fprintf "%[1]*.[2]*[3]d" = "%!(BADWIDTH)%!(BADPREC)%!d(BADINDEX)" := by
  decide

end Adret
